import Mathlib

/-!
Verification of the NGSS Skills & Standards toolkit (src/app.py).

The tabular core of the application is embedded shallowly:

* a pandas `DataFrame` whose cells are strings-or-missing becomes `Table`
  (`cols` is the ordered list of column labels, `rows` the list of rows, each
  row an ordered list of cells; a cell is `Option String`, `none` standing for
  pandas `NaN`);
* `_normalize_header`, `filter_contains`, `canonicalize_headers`,
  `add_grade_if_missing`, `csv_bytes` are translated function by function;
* `pd.concat([a, b], ignore_index=True)` becomes `pdConcat`;
* the sort stage `work.sort_values(by=c, ascending=a, kind="stable")`
  becomes `sort_values` (a stable insertion sort on the string order that
  Python uses, i.e. lexicographic comparison of code points);
* `pandas.Series.str.contains` interprets its argument as a regular
  expression; this is embedded by `reSearch` for the fragment of Python
  regexes built from literal characters and the metacharacter `.`.

Python `str.lower` is modelled for the basic-latin range (`Char.toLower`),
and `str.strip` with the four ASCII whitespace characters of
`Char.isWhitespace`; the CSV headers and cells the application handles are
within this range.
-/

namespace NGSS

/-! ### Characters -/

/-- Test for the character class `[a-z0-9]` of the regex in `_normalize_header`
(src/app.py line 70), by code point. -/
def isLowerAlnum (c : Char) : Bool :=
  (97 ≤ c.toNat && c.toNat ≤ 122) || (48 ≤ c.toNat && c.toNat ≤ 57)

/-- Complement of `isLowerAlnum`: the characters the regex `[^a-z0-9]+`
matches. -/
def notAlnum (c : Char) : Bool := !isLowerAlnum c

/-- Test for the underscore character, the class the regex `_+` matches. -/
def isUnd (c : Char) : Bool := c == '_'

/-! ### Python string primitives -/

/-- Python `str.rstrip` restricted to a character predicate: remove the
trailing run of characters satisfying `p`. -/
def pyRstrip (p : Char → Bool) (l : List Char) : List Char :=
  ((l.reverse).dropWhile p).reverse

/-- Python `str.strip` restricted to a character predicate: remove the leading
and the trailing run of characters satisfying `p`. -/
def pyStrip (p : Char → Bool) (l : List Char) : List Char :=
  pyRstrip p (l.dropWhile p)

/-- Embedding of `re.sub(r"R+", "_", s)` for a character class `R` given by
`p`: every maximal run of characters satisfying `p` is replaced by one
underscore. -/
def collapse (p : Char → Bool) : List Char → List Char
  | [] => []
  | [c] => if p c then ['_'] else [c]
  | c :: d :: cs =>
    if p c then
      (if p d then collapse p (d :: cs) else '_' :: collapse p (d :: cs))
    else c :: collapse p (d :: cs)

/-- Python `s.lower()` on a string, basic-latin model (`Char.toLower`). -/
def lowerStr (s : String) : String := String.mk (s.data.map Char.toLower)

/-- Python `s.strip()` on a string (ASCII whitespace model). -/
def stripStr (s : String) : String := String.mk (pyStrip Char.isWhitespace s.data)

/-! ### The header normalizer -/

/-- Shallow embedding of `_normalize_header` (src/app.py lines 69-70):

    re.sub(r"_+", "_", re.sub(r"[^a-z0-9]+", "_", (h or "").strip().lower())).strip("_")

The input is stripped of surrounding whitespace, lowercased, every run of
characters outside `[a-z0-9]` becomes one underscore, runs of underscores are
collapsed, and surrounding underscores are removed.  (`h or ""` turns a Python
`None` into the empty string; the embedding has no `None`, an absent header is
the empty string.) -/
def _normalize_header (h : String) : String :=
  String.mk (pyStrip isUnd (collapse isUnd (collapse notAlnum
    ((pyStrip Char.isWhitespace h.data).map Char.toLower))))

/-- The header normalizer exactly as the specification words it: lowercase the
input, replace every maximal run of characters outside `[a-z0-9]` with a
single underscore, and trim leading and trailing underscores. -/
def normalizeSpec (h : String) : String :=
  String.mk (pyStrip isUnd (collapse notAlnum (h.data.map Char.toLower)))

/-- Adjacency predicate: no two neighbouring characters both satisfy `p`. -/
def noTwo (p : Char → Bool) : List Char → Bool
  | c :: d :: cs => (!(p c && p d)) && noTwo p (d :: cs)
  | _ => true

/-- Whether the last character of `l` satisfies `p` (`false` on the empty list). -/
def lastP (p : Char → Bool) (l : List Char) : Bool := (l.getLast?.map p).getD false

/-! ### Tables -/

/-- A cell of a DataFrame: a string value, or `none` for pandas `NaN`. -/
abbrev Cell := Option String

/-- Shallow embedding of a pandas DataFrame as the app uses it: the ordered
column labels and the rows, each row one cell per column. -/
structure Table where
  cols : List String
  rows : List (List Cell)
deriving DecidableEq

/-- Invariant of the data model: every row has one cell per column. -/
def Aligned (t : Table) : Prop := ∀ r ∈ t.rows, r.length = t.cols.length

/-- Python `str(x)` on a cell, as `astype(str)` produces it: a missing value
(`NaN`) stringifies to `"nan"`. -/
def astypeStr (c : Cell) : String :=
  match c with
  | some s => s
  | none => "nan"

/-- Series lookup `df[c]` at one row: the cell of the first column labelled
`c`.  (`none` when the label is absent; the theorems assume the label occurs,
and occurs once, since pandas raises otherwise.) -/
def cellAt (cols : List String) (r : List Cell) (c : String) : Cell :=
  match cols.findIdx? (fun x => x == c) with
  | some i => r.getD i none
  | none => none

/-! ### The regex fragment behind `Series.str.contains` -/

/-- Tokens of the Python-regex fragment the embedding covers: a literal
character, or the metacharacter `.` (any character but a newline). -/
inductive RTok
  | lit : Char → RTok
  | dot : RTok
deriving DecidableEq

/-- Parse a pattern of the covered fragment: `.` becomes `dot`, every other
character a literal. -/
def parsePat (s : List Char) : List RTok :=
  s.map (fun c => if c = '.' then RTok.dot else RTok.lit c)

def tokMatch : RTok → Char → Bool
  | RTok.lit a, c => a == c
  | RTok.dot, c => !(c == '\n')

/-- Match the token list against a prefix of the text. -/
def matchHere : List RTok → List Char → Bool
  | [], _ => true
  | _ :: _, [] => false
  | t :: ts, c :: cs => tokMatch t c && matchHere ts cs

/-- Python `re.search` for the covered fragment: does the pattern match
starting at some position of the text? -/
def reSearch (pat : List RTok) : List Char → Bool
  | [] => matchHere pat []
  | c :: cs => matchHere pat (c :: cs) || reSearch pat cs

/-- Embedding of `Series.str.contains(pat, na=False)` on one string value:
pandas interprets `pat` as a regular expression (`regex=True` is the default)
and searches for it anywhere in the value.  Modelled for patterns in the
literal-and-dot fragment. -/
def strContains (hay : String) (pat : String) : Bool :=
  reSearch (parsePat pat.data) hay.data

/-- Characters with a special meaning in Python's `re` module. -/
def METACHARS : List Char :=
  ['.', '^', '$', '*', '+', '?', '\x7b', '\x7d', '[', ']', '\\', '|', '(', ')']

/-- Plain substring test, the specification's notion of "contains": is `pat` a
contiguous substring of `hay`? -/
def hasSubstr (pat : List Char) : List Char → Bool
  | [] => pat.isEmpty
  | c :: cs => pat.isPrefixOf (c :: cs) || hasSubstr pat cs

/-! ### The filter pipeline -/

/-- Row predicate of the free-text search of `filter_contains` (src/app.py
lines 74-79): some column's value, lowercased, matches the lowercased search
string. -/
def searchHit (cols : List String) (s : String) (r : List Cell) : Bool :=
  cols.any (fun c => strContains (lowerStr (astypeStr (cellAt cols r c))) (lowerStr s))

/-- Row predicate of one column filter of `filter_contains` (src/app.py lines
80-82). -/
def colHit (cols : List String) (c : String) (v : String) (r : List Cell) : Bool :=
  strContains (lowerStr (astypeStr (cellAt cols r c))) (lowerStr v)

/-- One step of the `for c, v in col_filters.items()` loop of
`filter_contains`: filter by `contains` when the value is non-empty. -/
def colFilterStep (acc : Table) (cv : String × String) : Table :=
  if cv.2 ≠ "" then
    { cols := acc.cols, rows := acc.rows.filter (colHit acc.cols cv.1 cv.2) }
  else acc

/-- Shallow embedding of `filter_contains` (src/app.py lines 72-83): an
optional free-text search over all columns, then one contains-filter per
`(column, value)` pair in order; an empty search string and empty filter
values are skipped.  The dict `col_filters` is its insertion-ordered pair
list. -/
def filter_contains (t : Table) (search : String)
    (colFilters : List (String × String)) : Table :=
  let t1 := if search ≠ "" then
    { cols := t.cols, rows := t.rows.filter (searchHit t.cols search) } else t
  colFilters.foldl colFilterStep t1

/-- Row predicate that claim C1 describes: the lowercased search string is a
substring of some column's value, and every non-empty column-filter value is
a substring of that column's value (all case-insensitively). -/
def claimKeep (cols : List String) (search : String)
    (colFilters : List (String × String)) (r : List Cell) : Bool :=
  (search == "" || cols.any (fun c =>
    hasSubstr (lowerStr search).data (lowerStr (astypeStr (cellAt cols r c))).data)) &&
  colFilters.all (fun cv => cv.2 == "" ||
    hasSubstr (lowerStr cv.2).data (lowerStr (astypeStr (cellAt cols r cv.1))).data)

/-! ### Column canonicalization -/

/-- The alias table `ALIAS_MAP` (src/app.py lines 218-227), in declaration
order. -/
def ALIAS_MAP : List (String × List String) :=
  [("grade", ["grade", "gr", "g", "Grade"]),
   ("code", ["code", "ngss", "id", "pe_code", "pe", "PE Code"]),
   ("title", ["title", "statement", "performance_expectation", "pe_statement",
              "Performance Expectation"]),
   ("domain", ["domain", "topic", "disciplinary_core_idea", "dci_domain"]),
   ("dci", ["dci", "disciplinary_core_idea", "core_idea"]),
   ("sep", ["sep", "science_and_engineering_practices"]),
   ("ccc", ["ccc", "crosscutting_concepts"]),
   ("notes", ["notes", "description", "comment"])]

/-- The fixed preferred column order (src/app.py line 228). -/
def PREFERRED_ORDER : List String :=
  ["grade", "code", "title", "domain", "dci", "sep", "ccc", "notes"]

/-- The new name of one column under the mapping loop of
`canonicalize_headers` (src/app.py lines 231-238): normalize the header, then
the first canonical field whose lowercased alias list contains it wins; with
no match the normalized header itself is the new name. -/
def canonName (col : String) : String :=
  match ALIAS_MAP.find? (fun p => (p.2.map lowerStr).contains (_normalize_header col)) with
  | some p => p.1
  | none => _normalize_header col

/-- Positions of all columns labelled `n`, from offset `i`. -/
def colIdxsFrom : List String → String → Nat → List Nat
  | [], _, _ => []
  | c :: cs, n, i =>
    if c = n then i :: colIdxsFrom cs n (i + 1) else colIdxsFrom cs n (i + 1)

/-- Positions of all columns labelled `n` (pandas label lookup returns every
matching column, in frame order). -/
def colIdxs (cols : List String) (n : String) : List Nat := colIdxsFrom cols n 0

/-- Embedding of the pandas column selection `out[names]`: for each requested
label, all columns carrying it, in frame order. -/
def selectByNames (t : Table) (names : List String) : Table :=
  { cols := (names.flatMap (colIdxs t.cols)).map (fun i => t.cols.getD i ""),
    rows := t.rows.map (fun r => (names.flatMap (colIdxs t.cols)).map (fun i => r.getD i none)) }

/-- The table after the renaming and grade-synthesis steps of
`canonicalize_headers` (src/app.py lines 231-240): every column renamed
through `canonName`; if no column is then labelled `grade`, a `grade` column
of empty strings is appended. -/
def gradeT (t : Table) : Table :=
  if (t.cols.map canonName).contains "grade" then
    { cols := t.cols.map canonName, rows := t.rows }
  else
    { cols := t.cols.map canonName ++ ["grade"],
      rows := t.rows.map (fun r => r ++ [some ""]) }

/-- Shallow embedding of `canonicalize_headers` (src/app.py lines 230-243):
rename every column through `canonName`; if no column is then labelled
`grade`, append a `grade` column of empty strings; finally select the present
preferred labels first and the remaining labels after, in order. -/
def canonicalize_headers (t : Table) : Table :=
  let t2 := gradeT t
  let ordered := PREFERRED_ORDER.filter (fun c => t2.cols.contains c)
  let remaining := t2.cols.filter (fun c => !(ordered.contains c))
  selectByNames t2 (ordered ++ remaining)

/-- Values of the first column labelled `n` (`none` when the label is
absent). -/
def colVals (t : Table) (n : String) : Option (List Cell) :=
  (t.cols.findIdx? (fun x => x == n)).map (fun i => t.rows.map (fun r => r.getD i none))

/-! ### Grade backfill -/

/-- One row of `add_grade_if_missing`: the `grade` cells are filled to `""`
when missing (`fillna("")`), kept as strings, and replaced by the default
when they strip to the empty string. -/
def backfillRow (cols : List String) (gv : String) (r : List Cell) : List Cell :=
  (cols.zip r).map (fun p =>
    if p.1 = "grade" then
      (if stripStr (p.2.getD "") = "" then some gv else some (p.2.getD ""))
    else p.2)

/-- Shallow embedding of `add_grade_if_missing` (src/app.py lines 245-251): a
falsy (empty) default value returns the table unchanged; otherwise every
`grade` cell that is missing or strips to the empty string becomes the
default value. -/
def add_grade_if_missing (t : Table) (gv : String) : Table :=
  if gv = "" then t
  else { cols := t.cols, rows := t.rows.map (backfillRow t.cols gv) }

/-! ### The sort stage -/

/-- Python string `<`: lexicographic comparison of the code-point
sequences. -/
def lexLt : List Char → List Char → Bool
  | _, [] => false
  | [], _ :: _ => true
  | a :: as, b :: bs =>
    if a.toNat < b.toNat then true
    else if a.toNat = b.toNat then lexLt as bs
    else false

/-- Python string `<=` via `lexLt` (a total order). -/
def strLe (a b : String) : Bool := !(lexLt b.data a.data)

/-- Comparison used by `sort_values`: string cells by Python `<=` in the
chosen direction, missing values (`NaN`) last in either direction
(`na_position="last"`). -/
def keyLe (asc : Bool) (x y : Cell) : Bool :=
  match x, y with
  | some a, some b => if asc then strLe a b else strLe b a
  | some _, none => true
  | none, some _ => false
  | none, none => true

/-- Stable insertion into a sorted list: the new element goes before the
first element it compares `le` to, so an earlier element never jumps over an
equal later one. -/
def insRow {α : Type} (le : α → α → Bool) (x : α) : List α → List α
  | [] => [x]
  | y :: ys => if le x y then x :: y :: ys else y :: insRow le x ys

/-- Stable insertion sort (any stable sort computes the same list, so this
also embeds the mergesort behind `kind="stable"`). -/
def isort {α : Type} (le : α → α → Bool) : List α → List α
  | [] => []
  | x :: xs => insRow le x (isort le xs)

/-- Shallow embedding of the pipeline's sort stage
`work.sort_values(by=col, ascending=asc, kind="stable")` (src/app.py line
281). -/
def sort_values (t : Table) (col : String) (asc : Bool) : Table :=
  { cols := t.cols,
    rows := isort (fun r s => keyLe asc (cellAt t.cols r col) (cellAt t.cols s col)) t.rows }

/-! ### The dataset accumulator -/

/-- Column labels of an outer-join concatenation: the first frame's labels,
then the new labels of the second in order (`pd.concat` with the default
`sort=False`). -/
def unionCols (a b : List String) : List String :=
  a ++ b.filter (fun c => !(a.contains c))

/-- Align one row of a frame with columns `src` to the label list `tgt`:
labels the frame lacks are filled with the missing value `NaN` (`none`). -/
def reindexRow (src tgt : List String) (r : List Cell) : List Cell :=
  tgt.map (fun c =>
    match src.findIdx? (fun x => x == c) with
    | some i => r.getD i none
    | none => none)

/-- Shallow embedding of `pd.concat([a, b], ignore_index=True)` (src/app.py
lines 316-317 and 335-336): all of `a`'s rows, then all of `b`'s rows, each
aligned to the union of the column labels. -/
def pdConcat (a b : Table) : Table :=
  { cols := unionCols a.cols b.cols,
    rows := a.rows.map (reindexRow a.cols (unionCols a.cols b.cols)) ++
            b.rows.map (reindexRow b.cols (unionCols a.cols b.cols)) }

/-! ### Bulk load from the data directory -/

/-- Result of one file in the `Load /data into Standards` loop (src/app.py
lines 327-333): `some df` when `pd.read_csv` parsed the file, `none` when it
raised.  The loop canonicalizes and keeps the parsed frames and records a
warning naming each unreadable file. -/
def loadFrames : List (String × Option Table) → List String × List Table
  | [] => ([], [])
  | (name, res) :: rest =>
    let pr := loadFrames rest
    match res with
    | some df => (pr.1, canonicalize_headers df :: pr.2)
    | none => (name :: pr.1, pr.2)

/-- Fold of the n-ary `pd.concat(frames, ignore_index=True)` over a non-empty
frame list. -/
def concatAll (f : Table) (fs : List Table) : Table := fs.foldl pdConcat f

/-- Shallow embedding of the `Load /data into Standards` handler (src/app.py
lines 327-337): read each file, skipping and warning on failures, and append
the concatenation of the surviving frames to the existing dataset (the
dataset is untouched when no frame survives).  Returns the new dataset and
the warnings. -/
def loadIntoStandards (existing : Table) (files : List (String × Option Table)) :
    Table × List String :=
  let pr := loadFrames files
  (match pr.2 with
   | [] => existing
   | f :: fs => pdConcat existing (concatAll f fs), pr.1)

/-! ### CSV export and re-import -/

/-- Whether `csv.writer` with `QUOTE_MINIMAL` must quote a field: it contains
the delimiter, the quote character, or a line-break character. -/
def needsQ (f : List Char) : Bool :=
  f.any (fun c => c = ',' || c = '"' || c = '\n' || c = '\r')

/-- Double every quote character (the CSV escape inside a quoted field). -/
def escQ : List Char → List Char
  | [] => []
  | c :: cs => if c = '"' then '"' :: '"' :: escQ cs else c :: escQ cs

/-- Render one CSV field, quoting exactly when `QUOTE_MINIMAL` does. -/
def quoteF (f : List Char) : List Char :=
  if needsQ f then '"' :: (escQ f ++ ['"']) else f

/-- Join rendered fields with the comma delimiter. -/
def joinComma : List (List Char) → List Char
  | [] => []
  | [f] => f
  | f :: g :: fs => f ++ ',' :: joinComma (g :: fs)

/-- Render one CSV record: the fields, comma-separated. -/
def renderLine (fields : List String) : List Char :=
  joinComma (fields.map (fun f => quoteF f.data))

/-- Cell as `to_csv` writes it: a missing value becomes the empty field. -/
def csvCellStr (c : Cell) : String :=
  match c with
  | some s => s
  | none => ""

/-- Shallow embedding of `csv_bytes` (src/app.py lines 85-86), i.e.
`df.to_csv(index=False).encode("utf-8")`: a header record, then one record
per row, each terminated by a newline.  UTF-8 encoding of the result is
injective, so the byte string is modelled by the string. -/
def csv_bytes (t : Table) : String :=
  String.mk (((renderLine t.cols) ::
    t.rows.map (fun r => renderLine (r.map csvCellStr))).flatMap (fun l => l ++ ['\n']))

/-- States of the CSV record parser: outside quotes, inside a quoted field,
or just after a quote character inside a quoted field (which either escapes a
quote or closes the field). -/
inductive CsvSt
  | plain : CsvSt
  | quoted : CsvSt
  | afterQ : CsvSt
deriving DecidableEq

/-- State machine of a CSV record parser: remaining input, current field
(reversed), state, fields finished so far. -/
def parseLineAux : List Char → List Char → CsvSt → List String → List String
  | [], acc, _, out => out ++ [String.mk acc.reverse]
  | c :: cs, acc, CsvSt.quoted, out =>
    if c = '"' then parseLineAux cs acc CsvSt.afterQ out
    else parseLineAux cs (c :: acc) CsvSt.quoted out
  | c :: cs, acc, CsvSt.afterQ, out =>
    if c = '"' then parseLineAux cs ('"' :: acc) CsvSt.quoted out
    else if c = ',' then parseLineAux cs [] CsvSt.plain (out ++ [String.mk acc.reverse])
    else parseLineAux cs (c :: acc) CsvSt.plain out
  | c :: cs, acc, CsvSt.plain, out =>
    if c = '"' then parseLineAux cs acc CsvSt.quoted out
    else if c = ',' then parseLineAux cs [] CsvSt.plain (out ++ [String.mk acc.reverse])
    else parseLineAux cs (c :: acc) CsvSt.plain out

/-- Parse one CSV record (standard quoting, fields without line breaks). -/
def parseLine (l : List Char) : List String := parseLineAux l [] CsvSt.plain []

/-- Split a character stream at newline characters. -/
def splitOnNl : List Char → List (List Char)
  | [] => [[]]
  | c :: cs =>
    if c = '\n' then [] :: splitOnNl cs
    else
      match splitOnNl cs with
      | [] => [[c]]
      | x :: xs => (c :: x) :: xs

/-- Modelled from the spec: the CSV reader that §4.6's round-trip property
re-parses the exported bytes with (the reader itself is not part of
src/app.py; pandas only re-reads files from disk).  It splits the stream into
newline-terminated records, reads the first as the header and the rest as
rows of string cells. -/
def parseCsv (s : String) : Table :=
  match (if (splitOnNl s.data).getLast? = some [] then (splitOnNl s.data).dropLast
         else splitOnNl s.data) with
  | [] => { cols := [], rows := [] }
  | h :: rs =>
    { cols := parseLine h, rows := rs.map (fun r => (parseLine r).map (fun v => some v)) }

/-! ### Character facts -/

theorem ws_elim {c : Char} (h : c.isWhitespace = true) :
    c = ' ' ∨ c = '\t' ∨ c = '\r' ∨ c = '\n' := by
  simp only [Char.isWhitespace, Bool.or_eq_true, decide_eq_true_eq] at h
  tauto

theorem ws_notAlnum {c : Char} (h : c.isWhitespace = true) : notAlnum c = true := by
  rcases ws_elim h with h | h | h | h <;> subst h <;> decide

theorem toLower_ws {c : Char} (h : c.isWhitespace = true) : Char.toLower c = c := by
  rcases ws_elim h with h | h | h | h <;> subst h <;> decide

theorem toLower_alnum {c : Char} (h : isLowerAlnum c = true) : Char.toLower c = c := by
  unfold Char.toLower
  have hn : ¬(c.toNat ≥ 65 ∧ c.toNat ≤ 90) := by
    simp only [isLowerAlnum, Bool.or_eq_true, Bool.and_eq_true, decide_eq_true_eq] at h
    omega
  simp [hn]

theorem alnum_ne_und {c : Char} (h : isLowerAlnum c = true) : isUnd c = false := by
  by_cases hc : c = '_'
  · subst hc; exact absurd h (by decide)
  · simp [isUnd, hc]

/-! ### Facts about `collapse` -/

theorem collapse_one (p : Char → Bool) (c : Char) :
    collapse p [c] = if p c then ['_'] else [c] := rfl

theorem collapse_two (p : Char → Bool) (c d : Char) (cs : List Char) :
    collapse p (c :: d :: cs) =
      if p c then (if p d then collapse p (d :: cs) else '_' :: collapse p (d :: cs))
      else c :: collapse p (d :: cs) := rfl

theorem collapse_head_not {p : Char → Bool} {d : Char} (h : p d = false) (cs : List Char) :
    collapse p (d :: cs) = d :: collapse p cs := by
  cases cs with
  | nil => simp [collapse_one, h, collapse]
  | cons e es => rw [collapse_two]; simp [h]

theorem collapse_pp {p : Char → Bool} {c d : Char} {cs : List Char}
    (hc : p c = true) (hd : p d = true) :
    collapse p (c :: d :: cs) = collapse p (d :: cs) := by
  rw [collapse_two]; simp [hc, hd]

theorem collapse_pn {p : Char → Bool} {c d : Char} {cs : List Char}
    (hc : p c = true) (hd : p d = false) :
    collapse p (c :: d :: cs) = '_' :: collapse p (d :: cs) := by
  rw [collapse_two]; simp [hc, hd]

theorem mem_collapse {p : Char → Bool} {a : Char} :
    ∀ {l : List Char}, a ∈ collapse p l → a = '_' ∨ p a = false := by
  intro l
  induction l with
  | nil => simp [collapse]
  | cons c cs ih =>
    cases cs with
    | nil =>
      intro hmem
      cases h : p c
      · rw [collapse_one, if_neg (by simp [h])] at hmem
        right; rw [List.mem_singleton.mp hmem]; exact h
      · rw [collapse_one, if_pos (by simp [h])] at hmem
        left; exact List.mem_singleton.mp hmem
    | cons d ds =>
      intro hmem
      cases hc : p c
      · rw [collapse_head_not hc] at hmem
        rcases List.mem_cons.mp hmem with he | he
        · subst he; right; exact hc
        · exact ih he
      · cases hd : p d
        · rw [collapse_pn hc hd] at hmem
          rcases List.mem_cons.mp hmem with he | he
          · left; exact he
          · exact ih he
        · rw [collapse_pp hc hd] at hmem
          exact ih hmem

theorem noTwo_one (p : Char → Bool) (c : Char) : noTwo p [c] = true := rfl

theorem noTwo_two (p : Char → Bool) (c d : Char) (cs : List Char) :
    noTwo p (c :: d :: cs) = ((!(p c && p d)) && noTwo p (d :: cs)) := rfl

theorem noTwo_tail {p : Char → Bool} {c : Char} {cs : List Char}
    (h : noTwo p (c :: cs) = true) : noTwo p cs = true := by
  cases cs with
  | nil => rfl
  | cons d ds =>
    rw [noTwo_two] at h
    simp only [Bool.and_eq_true] at h
    exact h.2

theorem noTwo_cons_of_not {p : Char → Bool} {c : Char} {cs : List Char}
    (h : p c = false) : noTwo p (c :: cs) = noTwo p cs := by
  cases cs with
  | nil => rfl
  | cons d ds => rw [noTwo_two]; simp [h]

theorem noTwoUnd_collapse (l : List Char) : noTwo isUnd (collapse notAlnum l) = true := by
  induction l with
  | nil => rfl
  | cons c cs ih =>
    cases cs with
    | nil =>
      cases h : notAlnum c <;> simp [collapse_one, h, noTwo_one]
    | cons d ds =>
      cases hc : notAlnum c
      · rw [collapse_head_not hc]
        have hu : isUnd c = false := alnum_ne_und (by simpa [notAlnum] using hc)
        rw [noTwo_cons_of_not hu]; exact ih
      · cases hd : notAlnum d
        · have hud : isUnd d = false := alnum_ne_und (by simpa [notAlnum] using hd)
          rw [collapse_pn hc hd, collapse_head_not hd]
          rw [collapse_head_not hd] at ih
          rw [noTwo_two]
          simp [hud, ih]
        · rw [collapse_pp hc hd]; exact ih

theorem collapse_id_of {p : Char → Bool} :
    ∀ {l : List Char}, (∀ c ∈ l, p c = true → c = '_') → noTwo p l = true →
      collapse p l = l := by
  intro l
  induction l with
  | nil => intro _ _; rfl
  | cons c cs ih =>
    intro hchar hnt
    cases cs with
    | nil =>
      cases h : p c
      · simp [collapse_one, h]
      · have hcu := hchar c (by simp) h
        subst hcu; simp [collapse_one, h]
    | cons d ds =>
      cases hc : p c
      · rw [collapse_head_not hc,
          ih (fun x hx hpx => hchar x (List.mem_cons_of_mem _ hx) hpx) (noTwo_tail hnt)]
      · have hcu := hchar c (by simp) hc
        have hd : p d = false := by
          rw [noTwo_two] at hnt
          simp only [Bool.and_eq_true] at hnt
          have h1 := hnt.1
          cases hdd : p d
          · rfl
          · rw [hc, hdd] at h1; exact absurd h1 (by decide)
        subst hcu
        rw [collapse_pn hc hd,
          ih (fun x hx hpx => hchar x (List.mem_cons_of_mem _ hx) hpx) (noTwo_tail hnt)]

theorem collapse_und_id {l : List Char} (h : noTwo isUnd l = true) :
    collapse isUnd l = l :=
  collapse_id_of (fun c _ hc => by simpa [isUnd] using hc) h

theorem collapse_und_collapse (l : List Char) :
    collapse isUnd (collapse notAlnum l) = collapse notAlnum l :=
  collapse_und_id (noTwoUnd_collapse l)

/-! ### Appending and reversing under `collapse` -/

theorem collapse_append (p : Char → Bool) (c : Char) :
    ∀ l : List Char, collapse p (l ++ [c]) =
      if p c then (if lastP p l then collapse p l else collapse p l ++ ['_'])
      else collapse p l ++ [c] := by
  intro l
  induction l with
  | nil => cases h : p c <;> simp [collapse_one, collapse, lastP, h]
  | cons a r ih =>
    cases r with
    | nil =>
      cases ha : p a <;> cases hc : p c <;>
        simp [collapse_one, collapse_two, lastP, ha, hc]
    | cons b r' =>
      have hl : lastP p (a :: b :: r') = lastP p (b :: r') := by
        simp [lastP, List.getLast?_cons_cons]
      have hstep : (a :: b :: r') ++ [c] = a :: ((b :: r') ++ [c]) := rfl
      cases ha : p a
      · rw [hstep, List.cons_append, collapse_head_not ha, ← List.cons_append, ih,
          collapse_head_not ha, hl]
        cases hc : p c <;> cases hlb : lastP p (b :: r') <;> simp [hc, hlb]
      · cases hb : p b
        · rw [hstep, List.cons_append, collapse_pn ha hb, ← List.cons_append, ih,
            collapse_pn ha hb, hl]
          cases hc : p c <;> cases hlb : lastP p (b :: r') <;> simp [hc, hlb]
        · rw [hstep, List.cons_append, collapse_pp ha hb, ← List.cons_append, ih,
            collapse_pp ha hb, hl]

theorem collapse_reverse (p : Char → Bool) : ∀ l : List Char,
    collapse p l.reverse = (collapse p l).reverse := by
  intro l
  induction l with
  | nil => rfl
  | cons c r ih =>
    rw [List.reverse_cons, collapse_append]
    cases r with
    | nil => cases hc : p c <;> simp [collapse_one, hc, lastP, collapse]
    | cons d r' =>
      have hl : lastP p (d :: r').reverse = p d := by
        simp [lastP, List.getLast?_reverse]
      cases hc : p c
      · rw [if_neg (by simp [hc]), ih, collapse_head_not hc, List.reverse_cons]
      · rw [if_pos (by simp [hc])]
        cases hd : p d
        · rw [hl, hd, if_neg (by simp), ih, collapse_pn hc hd, List.reverse_cons]
        · rw [hl, hd, if_pos rfl, ih, collapse_pp hc hd]

/-! ### Stripping from both ends -/

theorem dropWhile_strip_comm (p : Char → Bool) : ∀ x : List Char,
    List.dropWhile p ((List.dropWhile p x.reverse).reverse) =
    (List.dropWhile p ((List.dropWhile p x).reverse)).reverse := by
  intro x
  induction x with
  | nil => rfl
  | cons c xs ih =>
    cases hc : p c
    · rw [List.dropWhile_cons, hc]
      simp only [ite_false, Bool.false_eq_true]
      rw [List.reverse_cons, List.dropWhile_append]
      cases hD : List.dropWhile p xs.reverse with
      | nil =>
        simp only [hD, List.isEmpty_nil, ite_true]
        rw [List.dropWhile_cons, hc]
        simp [hc]
      | cons y ys =>
        simp only [hD, List.isEmpty_cons, ite_false, Bool.false_eq_true]
        rw [List.reverse_append]
        simp only [List.reverse_cons, List.reverse_nil, List.nil_append,
          List.singleton_append]
        rw [List.dropWhile_cons, hc]
        simp [← hD]
    · rw [List.dropWhile_cons, hc]
      simp only [ite_true]
      rw [List.reverse_cons, List.dropWhile_append]
      cases hD : List.dropWhile p xs.reverse with
      | nil =>
        simp only [hD, List.isEmpty_nil, ite_true]
        rw [List.dropWhile_cons, hc]
        simp only [ite_true, List.dropWhile_nil, List.reverse_nil]
        rw [← ih, hD]
        rfl
      | cons y ys =>
        simp only [hD, List.isEmpty_cons, ite_false, Bool.false_eq_true]
        rw [List.reverse_append]
        simp only [List.reverse_cons, List.reverse_nil, List.nil_append,
          List.singleton_append]
        rw [List.dropWhile_cons, hc]
        simp only [ite_true]
        rw [← ih, hD, List.reverse_cons]

theorem pyStrip_congr {p : Char → Bool} {x y : List Char}
    (h : x.dropWhile p = y.dropWhile p) : pyStrip p x = pyStrip p y := by
  simp [pyStrip, pyRstrip, h]

theorem pyStrip_reverse (p : Char → Bool) (z : List Char) :
    pyStrip p z.reverse = (pyStrip p z).reverse := by
  have h := dropWhile_strip_comm p z.reverse
  simp only [List.reverse_reverse] at h
  simp only [pyStrip, pyRstrip, List.reverse_reverse]
  exact h.symm

/-! ### Absorbing the whitespace strip of `_normalize_header` -/

theorem dropUnd_collapse_cons {a : Char} (ha : notAlnum a = true) (m : List Char) :
    List.dropWhile isUnd (collapse notAlnum (a :: m)) =
    List.dropWhile isUnd (collapse notAlnum m) := by
  cases m with
  | nil =>
    rw [collapse_one, if_pos (by simp [ha])]
    decide
  | cons b bs =>
    cases hb : notAlnum b
    · rw [collapse_pn ha hb, List.dropWhile_cons, if_pos (by simp [isUnd])]
    · rw [collapse_pp ha hb]

theorem dropUnd_collapse_stripWs (l : List Char) :
    List.dropWhile isUnd (collapse notAlnum
      ((l.dropWhile Char.isWhitespace).map Char.toLower)) =
    List.dropWhile isUnd (collapse notAlnum (l.map Char.toLower)) := by
  induction l with
  | nil => rfl
  | cons c r ih =>
    cases hw : c.isWhitespace
    · simp [List.dropWhile_cons, hw]
    · rw [List.dropWhile_cons, if_pos (by simp [hw]), ih, List.map_cons]
      have hna : notAlnum (Char.toLower c) = true := by
        rw [toLower_ws hw]; exact ws_notAlnum hw
      rw [dropUnd_collapse_cons hna]

theorem normRev (w : List Char) :
    pyStrip isUnd (collapse notAlnum w.reverse) =
    (pyStrip isUnd (collapse notAlnum w)).reverse := by
  rw [collapse_reverse, pyStrip_reverse]

theorem strip_absorb (l : List Char) :
    pyStrip isUnd (collapse notAlnum ((pyStrip Char.isWhitespace l).map Char.toLower)) =
    pyStrip isUnd (collapse notAlnum (l.map Char.toLower)) := by
  have lead : ∀ m : List Char,
      pyStrip isUnd (collapse notAlnum
        ((m.dropWhile Char.isWhitespace).map Char.toLower)) =
      pyStrip isUnd (collapse notAlnum (m.map Char.toLower)) :=
    fun m => pyStrip_congr (dropUnd_collapse_stripWs m)
  have h1 : (pyStrip Char.isWhitespace l).map Char.toLower =
      ((List.dropWhile Char.isWhitespace
        (l.dropWhile Char.isWhitespace).reverse).map Char.toLower).reverse := by
    simp [pyStrip, pyRstrip, List.map_reverse]
  rw [h1, normRev, lead, List.map_reverse, normRev, List.reverse_reverse]
  exact lead l

/-- Core refinement fact for the header normalizer: the Python implementation
(strip whitespace, lowercase, two regex substitutions, strip underscores)
agrees with the specification wording (lowercase, one run-replacement, trim
underscores) on every input. -/
theorem normalize_eq_spec (h : String) : _normalize_header h = normalizeSpec h := by
  unfold _normalize_header normalizeSpec
  rw [collapse_und_collapse, strip_absorb]

/-! ### Idempotence of the header normalizer -/

theorem mem_pyStrip {p : Char → Bool} {a : Char} {l : List Char}
    (h : a ∈ pyStrip p l) : a ∈ l := by
  simp only [pyStrip, pyRstrip] at h
  rw [List.mem_reverse] at h
  have h2 := (List.dropWhile_suffix p).subset h
  rw [List.mem_reverse] at h2
  exact (List.dropWhile_suffix p).subset h2

theorem noTwo_append_left {q : Char → Bool} :
    ∀ {as bs : List Char}, noTwo q (as ++ bs) = true → noTwo q as = true := by
  intro as
  induction as with
  | nil => intro bs _; rfl
  | cons a as' ih =>
    intro bs h
    cases as' with
    | nil => rfl
    | cons a2 as'' =>
      rw [List.cons_append, List.cons_append, noTwo_two] at h
      simp only [Bool.and_eq_true] at h
      rw [noTwo_two]
      simp only [Bool.and_eq_true]
      refine ⟨h.1, ?_⟩
      exact ih (by rw [List.cons_append]; exact h.2)

theorem noTwo_append_right {q : Char → Bool} :
    ∀ {as bs : List Char}, noTwo q (as ++ bs) = true → noTwo q bs = true := by
  intro as
  induction as with
  | nil => intro bs h; exact h
  | cons a as' ih =>
    intro bs h
    rw [List.cons_append] at h
    exact ih (noTwo_tail h)

theorem noTwo_dropWhile {q p : Char → Bool} {l : List Char}
    (h : noTwo q l = true) : noTwo q (l.dropWhile p) = true := by
  obtain ⟨t, ht⟩ := List.dropWhile_suffix (l := l) p
  rw [← ht] at h
  exact noTwo_append_right h

theorem pyRstrip_isPre (p : Char → Bool) (l : List Char) :
    ∃ t, pyRstrip p l ++ t = l := by
  have h : List.dropWhile p l.reverse <:+ l.reverse := List.dropWhile_suffix p
  have h2 : (List.dropWhile p l.reverse).reverse <+: l := by
    have h3 : (List.dropWhile p l.reverse).reverse <+: l.reverse.reverse :=
      List.reverse_prefix.mpr h
    simpa using h3
  obtain ⟨t, ht⟩ := h2
  exact ⟨t, ht⟩

theorem noTwo_pyRstrip {q p : Char → Bool} {l : List Char}
    (h : noTwo q l = true) : noTwo q (pyRstrip p l) = true := by
  obtain ⟨t, ht⟩ := pyRstrip_isPre p l
  rw [← ht] at h
  exact noTwo_append_left h

theorem noTwo_pyStrip {q p : Char → Bool} {l : List Char}
    (h : noTwo q l = true) : noTwo q (pyStrip p l) = true :=
  noTwo_pyRstrip (noTwo_dropWhile h)

theorem noTwo_weaken {q q' : Char → Bool} :
    ∀ {l : List Char}, (∀ c ∈ l, q' c = true → q c = true) → noTwo q l = true →
      noTwo q' l = true := by
  intro l
  induction l with
  | nil => intro _ _; rfl
  | cons c cs ih =>
    intro hc h
    cases cs with
    | nil => rfl
    | cons d ds =>
      rw [noTwo_two] at h ⊢
      simp only [Bool.and_eq_true] at h ⊢
      refine ⟨?_, ih (fun x hx => hc x (List.mem_cons_of_mem _ hx)) h.2⟩
      cases hqc : q' c
      · simp
      · cases hqd : q' d
        · simp
        · exfalso
          have h1 := hc c (by simp) hqc
          have h2 := hc d (by simp) hqd
          rw [h1, h2] at h
          simpa using h.1

theorem dropWhile_pyRstrip_dropWhile (p : Char → Bool) (x : List Char) :
    List.dropWhile p (pyRstrip p (List.dropWhile p x)) =
    pyRstrip p (List.dropWhile p x) := by
  obtain ⟨t, ht⟩ := pyRstrip_isPre p (List.dropWhile p x)
  cases hr : pyRstrip p (List.dropWhile p x) with
  | nil => rfl
  | cons y ys =>
    rw [List.dropWhile_cons]
    cases hy : p y
    · simp
    · exfalso
      rw [hr] at ht
      have hidem := List.dropWhile_idempotent p x
      rw [← ht, List.cons_append, List.dropWhile_cons, if_pos (by simp [hy])] at hidem
      have hsub : List.dropWhile p (ys ++ t) <:+ ys ++ t := List.dropWhile_suffix p
      have hlen := List.IsSuffix.length_le hsub
      rw [hidem] at hlen
      simp only [List.length_cons, List.length_append] at hlen
      omega

theorem pyRstrip_idem (p : Char → Bool) (v : List Char) :
    pyRstrip p (pyRstrip p v) = pyRstrip p v := by
  simp [pyRstrip, List.reverse_reverse, List.dropWhile_idempotent]

theorem pyStrip_idem (p : Char → Bool) (x : List Char) :
    pyStrip p (pyStrip p x) = pyStrip p x := by
  show pyRstrip p (List.dropWhile p (pyStrip p x)) = pyStrip p x
  rw [show pyStrip p x = pyRstrip p (List.dropWhile p x) from rfl]
  rw [dropWhile_pyRstrip_dropWhile, pyRstrip_idem]

theorem toLower_fix_out {a : Char} (h : a = '_' ∨ isLowerAlnum a = true) :
    Char.toLower a = a := by
  rcases h with h | h
  · subst h; decide
  · exact toLower_alnum h

theorem normalizeSpec_idem (h : String) :
    normalizeSpec (normalizeSpec h) = normalizeSpec h := by
  unfold normalizeSpec
  set y := pyStrip isUnd (collapse notAlnum (h.data.map Char.toLower)) with hy
  have hdata : (String.mk y).data = y := rfl
  rw [hdata]
  have hchars : ∀ a ∈ y, a = '_' ∨ isLowerAlnum a = true := by
    intro a ha
    rcases mem_collapse (mem_pyStrip ha) with h1 | h1
    · left; exact h1
    · right; simpa [notAlnum] using h1
  have hmap : y.map Char.toLower = y := by
    calc y.map Char.toLower = y.map id :=
          List.map_congr_left (fun a ha => toLower_fix_out (hchars a ha))
      _ = y := List.map_id y
  rw [hmap]
  have hch2 : ∀ c ∈ y, notAlnum c = true → c = '_' := by
    intro c hc hnc
    rcases hchars c hc with h1 | h1
    · exact h1
    · exact absurd hnc (by simp [notAlnum, h1])
  have hnt : noTwo notAlnum y = true := by
    refine noTwo_pyStrip (noTwo_weaken ?_ (noTwoUnd_collapse (h.data.map Char.toLower)))
    intro c hcm hna
    rcases mem_collapse hcm with h1 | h1
    · simp [isUnd, h1]
    · exact absurd hna (by simp [h1])
  rw [collapse_id_of hch2 hnt, hy, pyStrip_idem]

theorem normalize_idem_core (h : String) :
    _normalize_header (_normalize_header h) = _normalize_header h := by
  rw [normalize_eq_spec, normalize_eq_spec, normalizeSpec_idem, ← normalize_eq_spec]

/-! ### Helpers for the filter pipeline (claim C1) -/

theorem any_congr2 {α : Type} {l : List α} {f g : α → Bool}
    (h : ∀ a ∈ l, f a = g a) : l.any f = l.any g := by
  induction l with
  | nil => rfl
  | cons x xs ih =>
    rw [List.any_cons, List.any_cons, h x (by simp),
      ih (fun a ha => h a (List.mem_cons_of_mem _ ha))]

theorem all_congr2 {α : Type} {l : List α} {f g : α → Bool}
    (h : ∀ a ∈ l, f a = g a) : l.all f = l.all g := by
  induction l with
  | nil => rfl
  | cons x xs ih =>
    rw [List.all_cons, List.all_cons, h x (by simp),
      ih (fun a ha => h a (List.mem_cons_of_mem _ ha))]

theorem matchHere_lit (s : List Char) : ∀ hay : List Char,
    matchHere (s.map RTok.lit) hay = s.isPrefixOf hay := by
  induction s with
  | nil => intro hay; cases hay <;> rfl
  | cons a as ih =>
    intro hay
    cases hay with
    | nil => rfl
    | cons b bs => simp [matchHere, tokMatch, List.isPrefixOf, ih]

theorem reSearch_lit (s : List Char) : ∀ hay : List Char,
    reSearch (s.map RTok.lit) hay = hasSubstr s hay := by
  intro hay
  induction hay with
  | nil =>
    show matchHere (s.map RTok.lit) [] = s.isEmpty
    cases s <;> rfl
  | cons c cs ih =>
    show (matchHere (s.map RTok.lit) (c :: cs) || reSearch (s.map RTok.lit) cs) = _
    rw [matchHere_lit, ih]
    rfl

theorem strContains_lit {hay pat : String} (h : '.' ∉ pat.data) :
    strContains hay pat = hasSubstr pat.data hay.data := by
  unfold strContains parsePat
  rw [List.map_congr_left (g := RTok.lit) (fun c hc =>
    if_neg (fun he => h (by rw [← he]; exact hc)))]
  exact reSearch_lit pat.data hay.data

theorem toNat_ofNat_valid {n : Nat} (h : n.isValidChar) : (Char.ofNat n).toNat = n := by
  rw [Char.ofNat, dif_pos h]; rfl

theorem toLower_eq_meta {c m : Char} (hm : m ∈ METACHARS) (h : Char.toLower c = m) :
    c = m := by
  unfold Char.toLower at h
  by_cases hc : c.toNat ≥ 65 ∧ c.toNat ≤ 90
  · rw [if_pos hc] at h
    exfalso
    have hv : (c.toNat + 32).isValidChar := Or.inl (by omega)
    have h2 := congrArg Char.toNat h
    rw [toNat_ofNat_valid hv] at h2
    have hmv : ¬(97 ≤ m.toNat ∧ m.toNat ≤ 122) := by
      fin_cases hm <;> decide
    omega
  · rw [if_neg hc] at h; exact h

theorem lowerStr_meta_free {s : String} (h : ∀ ch ∈ s.data, ch ∉ METACHARS) :
    ∀ ch ∈ (lowerStr s).data, ch ∉ METACHARS := by
  intro ch hch hmem
  simp only [lowerStr] at hch
  obtain ⟨c, hc, hce⟩ := List.mem_map.mp hch
  have he := toLower_eq_meta hmem hce
  exact h c hc (by rw [he]; exact hmem)

theorem lowerStr_no_dot {s : String} (h : ∀ ch ∈ s.data, ch ∉ METACHARS) :
    '.' ∉ (lowerStr s).data :=
  fun hd => lowerStr_meta_free h '.' hd (by decide)

theorem colFilterStep_cols (acc : Table) (cv : String × String) :
    (colFilterStep acc cv).cols = acc.cols := by
  unfold colFilterStep; split <;> rfl

theorem foldl_colFilter_cols (fs : List (String × String)) :
    ∀ t0 : Table, (fs.foldl colFilterStep t0).cols = t0.cols := by
  induction fs with
  | nil => intro t0; rfl
  | cons cv fs ih => intro t0; rw [List.foldl_cons, ih, colFilterStep_cols]

theorem foldl_colFilter_rows (fs : List (String × String)) :
    ∀ t0 : Table, (fs.foldl colFilterStep t0).rows =
      t0.rows.filter (fun r => fs.all (fun cv => cv.2 == "" || colHit t0.cols cv.1 cv.2 r)) := by
  induction fs with
  | nil =>
    intro t0
    simp [List.filter_true]
  | cons cv fs ih =>
    intro t0
    rw [List.foldl_cons, ih, colFilterStep_cols]
    by_cases hv : cv.2 = ""
    · have hstep : colFilterStep t0 cv = t0 := by
        unfold colFilterStep; rw [if_neg (by simp [hv])]
      rw [hstep]
      apply List.filter_congr
      intro r _
      simp [List.all_cons, hv]
    · have hstep : colFilterStep t0 cv =
          { cols := t0.cols, rows := t0.rows.filter (colHit t0.cols cv.1 cv.2) } := by
        unfold colFilterStep; rw [if_pos hv]
      rw [hstep, List.filter_filter]
      apply List.filter_congr
      intro r _
      have hne : (cv.2 == "") = false := by simpa using hv
      rw [List.all_cons, hne]
      simp [Bool.and_comm]

/-- C1 (amended): for a table with pairwise distinct column labels, a search
string free of regex metacharacters, and column filters on existing columns
with values free of regex metacharacters, `filter_contains` keeps exactly the
rows on which the lowercased search string (when non-empty) is a
case-insensitive substring of some column's value and every non-empty filter
value is a case-insensitive substring of its column's value, the filters
combined by AND and empty entries ignored; the surviving rows keep their
original relative order.  (The metacharacter restriction is forced:
`Series.str.contains` treats the strings as regular expressions, see the
counterexample.) -/
theorem C1_filter_contains_spec (t : Table) (search : String)
    (colFilters : List (String × String))
    (_hnd : t.cols.Nodup)
    (hs : ∀ ch ∈ search.data, ch ∉ METACHARS)
    (hf : ∀ cv ∈ colFilters, cv.1 ∈ t.cols ∧ ∀ ch ∈ cv.2.data, ch ∉ METACHARS) :
    (filter_contains t search colFilters).cols = t.cols ∧
    (filter_contains t search colFilters).rows =
      t.rows.filter (claimKeep t.cols search colFilters) ∧
    List.Sublist (filter_contains t search colFilters).rows t.rows := by
  have hsearch : ∀ r : List Cell, searchHit t.cols search r =
      t.cols.any (fun c =>
        hasSubstr (lowerStr search).data (lowerStr (astypeStr (cellAt t.cols r c))).data) := by
    intro r
    unfold searchHit
    exact any_congr2 (fun c _ => strContains_lit (lowerStr_no_dot hs))
  have hcolhit : ∀ cv ∈ colFilters, ∀ r : List Cell, colHit t.cols cv.1 cv.2 r =
      hasSubstr (lowerStr cv.2).data (lowerStr (astypeStr (cellAt t.cols r cv.1))).data := by
    intro cv hcv r
    unfold colHit
    exact strContains_lit (lowerStr_no_dot (hf cv hcv).2)
  have hfc : filter_contains t search colFilters =
      colFilters.foldl colFilterStep
        (if search ≠ "" then
          { cols := t.cols, rows := t.rows.filter (searchHit t.cols search) } else t) := rfl
  rw [hfc]
  by_cases hse : search = ""
  · rw [if_neg (by simp [hse])]
    refine ⟨foldl_colFilter_cols _ _, ?_, ?_⟩
    · rw [foldl_colFilter_rows]
      apply List.filter_congr
      intro r _
      unfold claimKeep
      rw [show (search == "") = true by simp [hse], Bool.true_or, Bool.true_and]
      exact all_congr2 (fun cv hcv => by rw [hcolhit cv hcv r])
    · rw [foldl_colFilter_rows]
      exact List.filter_sublist _
  · rw [if_pos (by simp [hse])]
    refine ⟨foldl_colFilter_cols _ _, ?_, ?_⟩
    · rw [foldl_colFilter_rows]
      show (t.rows.filter (searchHit t.cols search)).filter
          (fun r => colFilters.all (fun cv => cv.2 == "" || colHit t.cols cv.1 cv.2 r)) = _
      rw [List.filter_filter]
      apply List.filter_congr
      intro r _
      show (colFilters.all (fun cv => cv.2 == "" || colHit t.cols cv.1 cv.2 r) &&
          searchHit t.cols search r) = claimKeep t.cols search colFilters r
      calc (colFilters.all (fun cv => cv.2 == "" || colHit t.cols cv.1 cv.2 r) &&
            searchHit t.cols search r)
          = (searchHit t.cols search r &&
            colFilters.all (fun cv => cv.2 == "" || colHit t.cols cv.1 cv.2 r)) :=
            Bool.and_comm _ _
        _ = ((t.cols.any fun c =>
              hasSubstr (lowerStr search).data (lowerStr (astypeStr (cellAt t.cols r c))).data) &&
            colFilters.all (fun cv => cv.2 == "" ||
              hasSubstr (lowerStr cv.2).data (lowerStr (astypeStr (cellAt t.cols r cv.1))).data)) := by
            rw [hsearch r]
            congr 1
            exact all_congr2 (fun cv hcv => by rw [hcolhit cv hcv r])
        _ = claimKeep t.cols search colFilters r := by
            unfold claimKeep
            rw [show (search == "") = false by simpa using hse, Bool.false_or]
    · rw [foldl_colFilter_rows]
      have h1 := List.filter_sublist (p := searchHit t.cols search) t.rows
      have h2 := List.filter_sublist
        (p := fun r => colFilters.all (fun cv => cv.2 == "" || colHit t.cols cv.1 cv.2 r))
        (t.rows.filter (searchHit t.cols search))
      exact h2.trans h1

/-- C1 counterexample: the claim as stated fails because
`Series.str.contains` treats the search string as a regular expression.  With
search string `"a.c"` on a one-row table whose only value is `"axc"`, the code
keeps the row (the regex `a.c` matches `axc`), while the claim says only rows
containing the substring `"a.c"` may be kept, which would leave no row. -/
theorem C1_counterexample :
    (filter_contains { cols := ["a"], rows := [[some "axc"]] } "a.c" []).rows ≠
      List.filter (claimKeep ["a"] "a.c" []) [[some "axc"]] := by decide

/-- C1 witness: the amended theorem applied to a concrete two-row table with
search string `"energy"` and one column filter. -/
theorem C1_witness :
    (∀ ch ∈ "energy".data, ch ∉ METACHARS) ∧
    (filter_contains
        { cols := ["a", "b"],
          rows := [[some "Energy flow", some "phys"], [some "water", some "chem"]] }
        "energy" [("b", "ph")]).rows =
      List.filter (claimKeep ["a", "b"] "energy" [("b", "ph")])
        [[some "Energy flow", some "phys"], [some "water", some "chem"]] :=
  ⟨by decide,
   (C1_filter_contains_spec
      { cols := ["a", "b"],
        rows := [[some "Energy flow", some "phys"], [some "water", some "chem"]] }
      "energy" [("b", "ph")] (by decide) (by decide) (by decide)).2.1⟩

/-- C7: for every raw header string, `_normalize_header` returns exactly the
string obtained by lowercasing the input, replacing every maximal run of
characters outside `[a-z0-9]` with a single underscore, and trimming leading
and trailing underscores (`normalizeSpec`); the empty input (a Python `None`
becomes the empty string via `h or ""`) normalizes to the empty string. -/
theorem C7_normalize_matches_spec :
    (∀ h : String, _normalize_header h = normalizeSpec h) ∧ _normalize_header "" = "" :=
  ⟨normalize_eq_spec, rfl⟩

/-- C8: header normalization is idempotent: for every string `h`, normalizing
the normalized header returns it unchanged. -/
theorem C8_normalize_idempotent (h : String) :
    _normalize_header (_normalize_header h) = _normalize_header h :=
  normalize_idem_core h

/-! ### Locating a column label (claims C2 to C6) -/

theorem findIdx?_from_mem {c : String} : ∀ (cols : List String) (k : Nat), c ∈ cols →
    ∃ i, List.findIdx? (fun x => x == c) cols k = some (k + i) ∧ i < cols.length ∧
      cols.getD i "" = c ∧ (∀ j, j < i → cols.getD j "" ≠ c) := by
  intro cols
  induction cols with
  | nil => intro k h; simp at h
  | cons a as ih =>
    intro k h
    by_cases ha : a = c
    · refine ⟨0, ?_, by simp, by simpa using ha, fun j hj => absurd hj (by omega)⟩
      rw [List.findIdx?_cons, if_pos (by simpa using ha)]
      simp
    · have hmem : c ∈ as := by
        rcases List.mem_cons.mp h with h1 | h1
        · exact absurd h1.symm ha
        · exact h1
      obtain ⟨i, hfi, hlt, hget, hprev⟩ := ih (k + 1) hmem
      refine ⟨i + 1, ?_, by simpa using Nat.succ_lt_succ hlt, by simpa using hget, ?_⟩
      · rw [List.findIdx?_cons, if_neg (by simpa using ha), hfi]
        congr 1
        omega
      · intro j hj
        cases j with
        | zero => simpa using ha
        | succ j2 =>
          have := hprev j2 (by omega)
          simpa using this

theorem cellAt_eq_getD {cols : List String} {c : String} {i : Nat} {r : List Cell}
    (h : List.findIdx? (fun x => x == c) cols = some i) :
    cellAt cols r c = r.getD i none := by
  unfold cellAt
  rw [h]

theorem findIdx?_of_not_mem {c : String} : ∀ (cols : List String) (k : Nat), c ∉ cols →
    List.findIdx? (fun x => x == c) cols k = none := by
  intro cols
  induction cols with
  | nil => intro k _; rfl
  | cons a as ih =>
    intro k h
    rw [List.findIdx?_cons, if_neg (by simp; intro he; exact h (by simp [he]))]
    exact ih (k + 1) (fun hm => h (List.mem_cons_of_mem _ hm))

/-! ### Grade backfill (claim C5) -/

theorem backfillRow_getD {cols : List String} {gv : String} {r : List Cell}
    (halign : r.length = cols.length) {j : Nat} (hj : j < cols.length) :
    (backfillRow cols gv r).getD j none =
      (if cols.getD j "" = "grade" then
        (if stripStr ((r.getD j none).getD "") = "" then some gv
         else some ((r.getD j none).getD "")) else r.getD j none) := by
  have hlen : (cols.zip r).length = cols.length := by
    rw [List.length_zip, halign]
    omega
  have hj2 : j < (backfillRow cols gv r).length := by
    unfold backfillRow
    rw [List.length_map, hlen]
    exact hj
  rw [List.getD_eq_getElem _ _ hj2]
  unfold backfillRow
  rw [List.getElem_map, List.getElem_zip]
  rw [List.getD_eq_getElem _ _ hj, List.getD_eq_getElem _ _ (by omega)]

/-- C5: on a table with one `grade` column and aligned rows,
`add_grade_if_missing` with an empty (falsy) default returns the table
unchanged; with a non-empty default it keeps the column labels, maps each row
through `backfillRow`, and in every row it sets the `grade` cell to the
default exactly when the cell is missing or strips to the empty string,
returns the `grade` cell unchanged otherwise, and leaves every other
column's cell unchanged.  (The input table is a value, so it is never
mutated; `out = df.copy()` in the source.) -/
theorem C5_add_grade_spec (t : Table) (gv : String)
    (hg : t.cols.count "grade" = 1) (ha : Aligned t) :
    (add_grade_if_missing t "" = t) ∧
    ((add_grade_if_missing t gv).cols = t.cols) ∧
    (gv ≠ "" → (add_grade_if_missing t gv).rows = t.rows.map (backfillRow t.cols gv)) ∧
    (∀ r ∈ t.rows,
      (cellAt t.cols (backfillRow t.cols gv r) "grade" =
        (if stripStr ((cellAt t.cols r "grade").getD "") = "" then some gv
         else cellAt t.cols r "grade")) ∧
      (∀ c ∈ t.cols, c ≠ "grade" →
        cellAt t.cols (backfillRow t.cols gv r) c = cellAt t.cols r c)) := by
  have hmem : "grade" ∈ t.cols := (List.count_pos_iff).mp (by omega)
  obtain ⟨i, hfi, hilt, hig, _⟩ := findIdx?_from_mem t.cols 0 hmem
  rw [Nat.zero_add] at hfi
  refine ⟨?_, ?_, ?_, ?_⟩
  · unfold add_grade_if_missing
    rw [if_pos rfl]
  · unfold add_grade_if_missing
    by_cases hgv : gv = ""
    · rw [if_pos hgv]
    · rw [if_neg hgv]
  · intro hgv
    unfold add_grade_if_missing
    rw [if_neg hgv]
  · intro r hr
    have halign : r.length = t.cols.length := ha r hr
    constructor
    · rw [cellAt_eq_getD (r := backfillRow t.cols gv r) hfi,
        cellAt_eq_getD (r := r) hfi]
      rw [backfillRow_getD halign hilt, if_pos hig]
      by_cases hstrip : stripStr ((r.getD i none).getD "") = ""
      · rw [if_pos hstrip, if_pos hstrip]
      · rw [if_neg hstrip, if_neg hstrip]
        cases hc : r.getD i none with
        | none =>
          exfalso
          apply hstrip
          rw [hc]
          rfl
        | some s => rfl
    · intro c hc hne
      obtain ⟨j, hfj, hjlt, hjc, _⟩ := findIdx?_from_mem t.cols 0 hc
      rw [Nat.zero_add] at hfj
      rw [cellAt_eq_getD (r := backfillRow t.cols gv r) hfj,
        cellAt_eq_getD (r := r) hfj,
        backfillRow_getD halign hjlt, if_neg (by rw [hjc]; exact hne)]

/-- C5 witness: the theorem applied to a concrete table with a
whitespace-only grade in one row and a present grade in the other, default
`"6th"`. -/
theorem C5_witness :
    (List.count "grade" ["grade", "x"] = 1) ∧
    (add_grade_if_missing
        { cols := ["grade", "x"], rows := [[some " ", some "u"], [some "7th", some "v"]] }
        "6th").rows =
      List.map (backfillRow ["grade", "x"] "6th")
        [[some " ", some "u"], [some "7th", some "v"]] :=
  ⟨by decide,
   (C5_add_grade_spec
      { cols := ["grade", "x"], rows := [[some " ", some "u"], [some "7th", some "v"]] }
      "6th" (by decide) (by intro r hr; fin_cases hr <;> rfl)).2.2.1 (by decide)⟩

/-! ### The accumulator (claim C3) -/

theorem cellAt_not_mem {cols : List String} {c : String} {r : List Cell}
    (h : c ∉ cols) : cellAt cols r c = none := by
  unfold cellAt
  rw [findIdx?_of_not_mem cols 0 h]

theorem reindexRow_cellAt {src tgt : List String} {r : List Cell} {c : String}
    (hc : c ∈ tgt) :
    cellAt tgt (reindexRow src tgt r) c = cellAt src r c := by
  obtain ⟨q, hfq, hqlt, hqc, _⟩ := findIdx?_from_mem tgt 0 hc
  rw [Nat.zero_add] at hfq
  rw [cellAt_eq_getD (r := reindexRow src tgt r) hfq]
  unfold reindexRow
  have hq2 : q < (tgt.map (fun c2 =>
      match List.findIdx? (fun x => x == c2) src with
      | some i => r.getD i none
      | none => none)).length := by
    rw [List.length_map]; exact hqlt
  rw [List.getD_eq_getElem _ _ hq2, List.getElem_map]
  rw [show tgt[q] = c from by rw [← List.getD_eq_getElem tgt "" hqlt, hqc]]
  rfl

theorem mem_unionCols {a b : List String} {c : String} :
    c ∈ unionCols a b ↔ (c ∈ a ∨ c ∈ b) := by
  unfold unionCols
  rw [List.mem_append]
  constructor
  · rintro (h | h)
    · left; exact h
    · right; exact (List.mem_filter.mp h).1
  · rintro (h | h)
    · left; exact h
    · by_cases hm : c ∈ a
      · left; exact hm
      · right
        refine List.mem_filter.mpr ⟨h, ?_⟩
        simpa using hm

/-- C3 (amended): `pdConcat` places all of the first table's rows before all
of the second's (so 10 rows then 5 rows make 15 in file-then-row order); the
column labels are the first table's in order followed by the second's new
labels in order; every cell under a label of a row's own table keeps its
value; and a cell of a row whose own table lacks that label is filled with
the missing-value placeholder `none` (pandas `NaN`) - not with an
empty-string cell, see the counterexample. -/
theorem C3_pdConcat_spec (a b : Table) :
    (pdConcat a b).cols = a.cols ++ b.cols.filter (fun c => !(a.cols.contains c)) ∧
    (∀ c, c ∈ (pdConcat a b).cols ↔ (c ∈ a.cols ∨ c ∈ b.cols)) ∧
    (pdConcat a b).rows =
      a.rows.map (reindexRow a.cols (unionCols a.cols b.cols)) ++
      b.rows.map (reindexRow b.cols (unionCols a.cols b.cols)) ∧
    (pdConcat a b).rows.length = a.rows.length + b.rows.length ∧
    (∀ r ∈ a.rows, ∀ c ∈ a.cols,
      cellAt (pdConcat a b).cols (reindexRow a.cols (unionCols a.cols b.cols) r) c =
        cellAt a.cols r c) ∧
    (∀ r ∈ a.rows, ∀ c, c ∉ a.cols →
      cellAt (pdConcat a b).cols (reindexRow a.cols (unionCols a.cols b.cols) r) c = none) ∧
    (∀ r ∈ b.rows, ∀ c ∈ b.cols,
      cellAt (pdConcat a b).cols (reindexRow b.cols (unionCols a.cols b.cols) r) c =
        cellAt b.cols r c) ∧
    (∀ r ∈ b.rows, ∀ c, c ∉ b.cols →
      cellAt (pdConcat a b).cols (reindexRow b.cols (unionCols a.cols b.cols) r) c = none) := by
  have hcols : (pdConcat a b).cols = unionCols a.cols b.cols := rfl
  refine ⟨rfl, fun c => by rw [hcols]; exact mem_unionCols, rfl, ?_, ?_, ?_, ?_, ?_⟩
  · show (a.rows.map _ ++ b.rows.map _).length = _
    rw [List.length_append, List.length_map, List.length_map]
  · intro r _ c hc
    rw [hcols]
    exact reindexRow_cellAt (mem_unionCols.mpr (Or.inl hc))
  · intro r _ c hc
    rw [hcols]
    by_cases hu : c ∈ unionCols a.cols b.cols
    · rw [reindexRow_cellAt hu]
      exact cellAt_not_mem hc
    · exact cellAt_not_mem hu
  · intro r _ c hc
    rw [hcols]
    exact reindexRow_cellAt (mem_unionCols.mpr (Or.inr hc))
  · intro r _ c hc
    rw [hcols]
    by_cases hu : c ∈ unionCols a.cols b.cols
    · rw [reindexRow_cellAt hu]
      exact cellAt_not_mem hc
    · exact cellAt_not_mem hu

/-- C3 counterexample: concatenating a table with column `a` and a table with
column `b` fills the cells of the absent column with the missing value `none`
(pandas `NaN`), not with the empty-string placeholder the claim states; the
two outputs differ. -/
theorem C3_counterexample :
    pdConcat { cols := ["a"], rows := [[some "1"]] }
        { cols := ["b"], rows := [[some "2"]] } =
      { cols := ["a", "b"], rows := [[some "1", none], [none, some "2"]] } ∧
    pdConcat { cols := ["a"], rows := [[some "1"]] }
        { cols := ["b"], rows := [[some "2"]] } ≠
      { cols := ["a", "b"], rows := [[some "1", some ""], [some "", some "2"]] } := by
  constructor
  · decide
  · decide

/-- C3 witness: the amended theorem applied to concrete one-row tables; the
first table's cell under its own column keeps its value. -/
theorem C3_witness :
    cellAt (pdConcat { cols := ["a"], rows := [[some "1"]] }
        { cols := ["b"], rows := [[some "2"]] }).cols
      (reindexRow ["a"] (unionCols ["a"] ["b"]) [some "1"]) "a" =
      cellAt ["a"] [some "1"] "a" :=
  (C3_pdConcat_spec { cols := ["a"], rows := [[some "1"]] }
    { cols := ["b"], rows := [[some "2"]] }).2.2.2.2.1 [some "1"] (by decide) "a" (by decide)

/-! ### Bulk directory load (claim C9) -/

theorem loadFrames_warnings : ∀ files : List (String × Option Table),
    (loadFrames files).1 = (files.filter (fun f => f.2.isNone)).map (fun f => f.1) := by
  intro files
  induction files with
  | nil => rfl
  | cons f fs ih =>
    cases f with
    | mk name res =>
      cases res with
      | none =>
        show name :: (loadFrames fs).1 = _
        rw [ih, List.filter_cons]
        simp
      | some df =>
        show (loadFrames fs).1 = _
        rw [ih, List.filter_cons]
        simp

theorem loadFrames_frames : ∀ files : List (String × Option Table),
    (loadFrames files).2 = (files.filterMap (fun f => f.2)).map canonicalize_headers := by
  intro files
  induction files with
  | nil => rfl
  | cons f fs ih =>
    cases f with
    | mk name res =>
      cases res with
      | none =>
        show (loadFrames fs).2 = _
        rw [ih, List.filterMap_cons]
      | some df =>
        show canonicalize_headers df :: (loadFrames fs).2 = _
        rw [ih, List.filterMap_cons]
        rfl

theorem filterMap_isSome {α β : Type} (g : α → Option β) : ∀ l : List α,
    (l.filter (fun x => (g x).isSome)).filterMap g = l.filterMap g := by
  intro l
  induction l with
  | nil => rfl
  | cons x xs ih =>
    cases hg : g x with
    | none => simp [List.filter_cons, List.filterMap_cons, hg, ih]
    | some y => simp [List.filter_cons, List.filterMap_cons, hg, ih]

/-- C9: in the bulk load of the data directory, every file whose read or
parse fails is skipped with a warning naming the file, in order; the dataset
that results is the one obtained from the successfully parsed files alone
(so the batch never fails as a whole); and if every file fails the dataset is
left untouched. -/
theorem C9_bulk_load_spec (existing : Table) (files : List (String × Option Table)) :
    (loadIntoStandards existing files).2 =
      (files.filter (fun f => f.2.isNone)).map (fun f => f.1) ∧
    (∀ name, (name, (none : Option Table)) ∈ files →
      name ∈ (loadIntoStandards existing files).2) ∧
    (loadIntoStandards existing files).1 =
      (loadIntoStandards existing (files.filter (fun f => f.2.isSome))).1 ∧
    ((∀ f ∈ files, f.2 = none) → (loadIntoStandards existing files).1 = existing) := by
  have hsnd : (loadIntoStandards existing files).2 = (loadFrames files).1 := rfl
  have hfr : (loadFrames (files.filter (fun f => f.2.isSome))).2 = (loadFrames files).2 := by
    rw [loadFrames_frames, loadFrames_frames, filterMap_isSome]
  refine ⟨?_, ?_, ?_, ?_⟩
  · rw [hsnd, loadFrames_warnings]
  · intro name hmem
    rw [hsnd, loadFrames_warnings]
    exact List.mem_map.mpr ⟨(name, none), List.mem_filter.mpr ⟨hmem, rfl⟩, rfl⟩
  · show (match (loadFrames files).2 with
      | [] => existing
      | f :: fs => pdConcat existing (concatAll f fs)) =
      (match (loadFrames (files.filter (fun f => f.2.isSome))).2 with
      | [] => existing
      | f :: fs => pdConcat existing (concatAll f fs))
    rw [hfr]
  · intro hall
    show (match (loadFrames files).2 with
      | [] => existing
      | f :: fs => pdConcat existing (concatAll f fs)) = existing
    have : (loadFrames files).2 = [] := by
      rw [loadFrames_frames]
      have : files.filterMap (fun f => f.2) = [] := by
        rw [List.filterMap_eq_nil_iff]
        exact hall
      rw [this]
      rfl
    rw [this]

/-- C9 witness: one parsed file and one unreadable file; the unreadable
file's name appears among the warnings. -/
theorem C9_witness :
    ("bad.csv", (none : Option Table)) ∈
      [("ok.csv", some { cols := ["a"], rows := [[some "1"]] }),
       ("bad.csv", (none : Option Table))] ∧
    "bad.csv" ∈ (loadIntoStandards { cols := [], rows := [] }
      [("ok.csv", some { cols := ["a"], rows := [[some "1"]] }),
       ("bad.csv", (none : Option Table))]).2 :=
  ⟨by decide,
   (C9_bulk_load_spec { cols := [], rows := [] }
      [("ok.csv", some { cols := ["a"], rows := [[some "1"]] }),
       ("bad.csv", (none : Option Table))]).2.1 "bad.csv" (by decide)⟩

/-! ### The sort stage (claim C4) -/

theorem lexLt_cons (a b : Char) (as bs : List Char) :
    lexLt (a :: as) (b :: bs) =
      (if a.toNat < b.toNat then true
       else if a.toNat = b.toNat then lexLt as bs else false) := rfl

theorem lexLt_nil (a : List Char) : lexLt a [] = false := by cases a <;> rfl

theorem lexLt_irrefl : ∀ a : List Char, lexLt a a = false := by
  intro a
  induction a with
  | nil => rfl
  | cons c cs ih => rw [lexLt_cons, if_neg (by omega), if_pos rfl, ih]

theorem lexLt_asymm : ∀ a b : List Char, lexLt a b = true → lexLt b a = false := by
  intro a
  induction a with
  | nil =>
    intro b h
    cases b with
    | nil => exact absurd h (by decide)
    | cons d ds => exact lexLt_nil _
  | cons c cs ih =>
    intro b h
    cases b with
    | nil => rw [lexLt_nil] at h; exact absurd h (by decide)
    | cons d ds =>
      rw [lexLt_cons] at h
      by_cases h1 : c.toNat < d.toNat
      · rw [lexLt_cons, if_neg (by omega), if_neg (by omega)]
      · rw [if_neg h1] at h
        by_cases h2 : c.toNat = d.toNat
        · rw [if_pos h2] at h
          rw [lexLt_cons, if_neg (by omega), if_pos (by omega), ih ds h]
        · rw [if_neg h2] at h
          exact absurd h (by decide)

theorem lexLt_split : ∀ (c a b : List Char), lexLt c a = true →
    lexLt c b = true ∨ lexLt b a = true := by
  intro c
  induction c with
  | nil =>
    intro a b h
    cases a with
    | nil => rw [lexLt_nil] at h; exact absurd h (by decide)
    | cons x xs =>
      cases b with
      | nil => right; rfl
      | cons y ys => left; rfl
  | cons c0 cs ih =>
    intro a b h
    cases a with
    | nil => rw [lexLt_nil] at h; exact absurd h (by decide)
    | cons a0 as =>
      cases b with
      | nil => right; rfl
      | cons b0 bs =>
        rw [lexLt_cons] at h
        by_cases h1 : c0.toNat < a0.toNat
        · by_cases h2 : c0.toNat < b0.toNat
          · left; rw [lexLt_cons, if_pos h2]
          · right; rw [lexLt_cons, if_pos (by omega)]
        · rw [if_neg h1] at h
          by_cases h2 : c0.toNat = a0.toNat
          · rw [if_pos h2] at h
            by_cases h3 : c0.toNat < b0.toNat
            · left; rw [lexLt_cons, if_pos h3]
            · by_cases h4 : c0.toNat = b0.toNat
              · rcases ih as bs h with h5 | h5
                · left; rw [lexLt_cons, if_neg h3, if_pos h4, h5]
                · right; rw [lexLt_cons, if_neg (by omega), if_pos (by omega), h5]
              · right; rw [lexLt_cons, if_pos (by omega)]
          · rw [if_neg h2] at h
            exact absurd h (by decide)

theorem strLe_total {a b : String} (h : strLe a b = false) : strLe b a = true := by
  unfold strLe at h ⊢
  rw [Bool.not_eq_false'] at h
  rw [lexLt_asymm _ _ h]
  rfl

theorem strLe_trans {a b c : String} (h1 : strLe a b = true) (h2 : strLe b c = true) :
    strLe a c = true := by
  unfold strLe at h1 h2 ⊢
  rw [Bool.not_eq_true'] at h1 h2
  cases h3 : lexLt c.data a.data
  · rfl
  · rcases lexLt_split c.data a.data b.data h3 with h4 | h4
    · rw [h4] at h2; exact absurd h2 (by decide)
    · rw [h4] at h1; exact absurd h1 (by decide)

theorem keyLe_total {asc : Bool} (x y : Cell) :
    keyLe asc x y = true ∨ keyLe asc y x = true := by
  cases x with
  | none =>
    cases y with
    | none => left; rfl
    | some b => right; rfl
  | some a =>
    cases y with
    | none => left; rfl
    | some b =>
      cases asc
      · cases h : strLe b a
        · right
          show strLe a b = true
          exact strLe_total h
        · left
          show strLe b a = true
          exact h
      · cases h : strLe a b
        · right
          show strLe b a = true
          exact strLe_total h
        · left
          show strLe a b = true
          exact h

theorem keyLe_trans {asc : Bool} {x y z : Cell} (h1 : keyLe asc x y = true)
    (h2 : keyLe asc y z = true) : keyLe asc x z = true := by
  cases x with
  | none =>
    cases y with
    | none => exact h2
    | some b =>
      have hf : keyLe asc none (some b) = false := by cases asc <;> rfl
      rw [hf] at h1
      exact absurd h1 (by decide)
  | some a =>
    cases z with
    | none => cases asc <;> rfl
    | some cc =>
      cases y with
      | none =>
        have hf : keyLe asc none (some cc) = false := by cases asc <;> rfl
        rw [hf] at h2
        exact absurd h2 (by decide)
      | some b =>
        cases asc
        · exact strLe_trans (show strLe cc b = true from h2) (show strLe b a = true from h1)
        · exact strLe_trans (show strLe a b = true from h1) (show strLe b cc = true from h2)

theorem keyLe_ne {asc : Bool} {x y : Cell} (h : keyLe asc x y = false) : x ≠ y := by
  intro he
  have ht : keyLe asc y y = true := by
    cases y with
    | none => rfl
    | some a =>
      cases asc <;>
        (show strLe a a = true
         unfold strLe
         rw [lexLt_irrefl]
         rfl)
  rw [he, ht] at h
  exact absurd h (by decide)

theorem insRow_perm {α : Type} (le : α → α → Bool) (x : α) :
    ∀ l : List α, List.Perm (insRow le x l) (x :: l) := by
  intro l
  induction l with
  | nil => exact List.Perm.refl _
  | cons y ys ih =>
    unfold insRow
    by_cases h : le x y = true
    · rw [if_pos h]
    · rw [if_neg h]
      exact (List.Perm.cons y ih).trans (List.Perm.swap x y ys)

theorem isort_perm {α : Type} (le : α → α → Bool) : ∀ l, List.Perm (isort le l) l := by
  intro l
  induction l with
  | nil => exact List.Perm.refl _
  | cons x xs ih =>
    exact (insRow_perm le x (isort le xs)).trans (List.Perm.cons x ih)

theorem insRow_pairwise {α : Type} {le : α → α → Bool}
    (htot : ∀ a b, le a b = true ∨ le b a = true)
    (htr : ∀ {a b c}, le a b = true → le b c = true → le a c = true)
    (x : α) : ∀ {l}, List.Pairwise (fun a b => le a b = true) l →
      List.Pairwise (fun a b => le a b = true) (insRow le x l) := by
  intro l
  induction l with
  | nil =>
    intro _
    exact List.pairwise_cons.mpr ⟨by simp, List.Pairwise.nil⟩
  | cons y ys ih =>
    intro hp
    have hy := (List.pairwise_cons.mp hp).1
    have hys := (List.pairwise_cons.mp hp).2
    unfold insRow
    by_cases h : le x y = true
    · rw [if_pos h]
      refine List.pairwise_cons.mpr ⟨?_, hp⟩
      intro b hb
      rcases List.mem_cons.mp hb with hbe | hbm
      · subst hbe; exact h
      · exact htr h (hy b hbm)
    · rw [if_neg h]
      refine List.pairwise_cons.mpr ⟨?_, ih hys⟩
      intro b hb
      have hmem := (insRow_perm le x ys).mem_iff.mp hb
      rcases List.mem_cons.mp hmem with hbe | hbm
      · rw [hbe]
        rcases htot x y with h1 | h1
        · exact absurd h1 h
        · exact h1
      · exact hy b hbm

theorem isort_pairwise {α : Type} {le : α → α → Bool}
    (htot : ∀ a b, le a b = true ∨ le b a = true)
    (htr : ∀ {a b c}, le a b = true → le b c = true → le a c = true) :
    ∀ l, List.Pairwise (fun a b => le a b = true) (isort le l) := by
  intro l
  induction l with
  | nil => exact List.Pairwise.nil
  | cons x xs ih => exact insRow_pairwise htot htr x ih

theorem insRow_filter_of_pos {α : Type} {le : α → α → Bool} {p : α → Bool} {x : α}
    (hx : p x = true) (hskip : ∀ y, le x y = false → p y = false) :
    ∀ l, (insRow le x l).filter p = x :: l.filter p := by
  intro l
  induction l with
  | nil => simp [insRow, List.filter_cons, hx]
  | cons y ys ih =>
    unfold insRow
    by_cases h : le x y = true
    · rw [if_pos h]
      simp [List.filter_cons, hx]
    · rw [if_neg h]
      have hpy : p y = false := hskip y (by simpa using h)
      simp [List.filter_cons, hpy, ih]

theorem insRow_filter_of_neg {α : Type} {le : α → α → Bool} {p : α → Bool} {x : α}
    (hx : p x = false) :
    ∀ l, (insRow le x l).filter p = l.filter p := by
  intro l
  induction l with
  | nil => simp [insRow, List.filter_cons, hx]
  | cons y ys ih =>
    unfold insRow
    by_cases h : le x y = true
    · rw [if_pos h]
      simp [List.filter_cons, hx]
    · rw [if_neg h]
      cases hpy : p y <;> simp [List.filter_cons, hpy, ih]

theorem isort_stable {α : Type} {le : α → α → Bool} {p : α → Bool}
    (hskip : ∀ x y, p x = true → le x y = false → p y = false) :
    ∀ l, (isort le l).filter p = l.filter p := by
  intro l
  induction l with
  | nil => rfl
  | cons x xs ih =>
    show (insRow le x (isort le xs)).filter p = _
    cases hx : p x
    · rw [insRow_filter_of_neg hx, ih]
      simp [List.filter_cons, hx]
    · rw [insRow_filter_of_pos hx (fun y hy => hskip x y hx hy), ih]
      simp [List.filter_cons, hx]

/-- C4: the sort stage keeps the column labels, permutes the rows, orders
them by lexicographic comparison of the chosen column's string values
(missing values last), ascending or descending as chosen, and is stable: the
rows carrying any fixed sort-key value keep their pre-sort relative order.
The hypotheses state the chosen column exists and labels are unambiguous
(pandas raises otherwise). -/
theorem C4_sort_spec (t : Table) (col : String) (asc : Bool)
    (_hmem : col ∈ t.cols) (_hnd : t.cols.Nodup) :
    (sort_values t col asc).cols = t.cols ∧
    List.Perm (sort_values t col asc).rows t.rows ∧
    List.Pairwise (fun r s =>
      keyLe asc (cellAt t.cols r col) (cellAt t.cols s col) = true)
      (sort_values t col asc).rows ∧
    (∀ v : Cell,
      (sort_values t col asc).rows.filter (fun r => cellAt t.cols r col == v) =
        t.rows.filter (fun r => cellAt t.cols r col == v)) := by
  refine ⟨rfl, isort_perm _ _, ?_, ?_⟩
  · exact @isort_pairwise (List Cell)
      (fun r s => keyLe asc (cellAt t.cols r col) (cellAt t.cols s col))
      (fun a b => keyLe_total _ _)
      (fun h1 h2 => keyLe_trans h1 h2)
      t.rows
  · intro v
    apply isort_stable
    intro x y hx hle
    have hxe : cellAt t.cols x col = v := by simpa using hx
    have hne := keyLe_ne hle
    rw [hxe] at hne
    simpa using (Ne.symm hne)

/-- C4 witness: sorting the grade values 4th, 10th, 9th descending yields
9th, 4th, 10th (lexicographic, not numeric), and the theorem applies. -/
theorem C4_witness :
    ("grade" ∈ (["grade"] : List String)) ∧
    (sort_values
        { cols := ["grade"], rows := [[some "4th"], [some "10th"], [some "9th"]] }
        "grade" false).rows = [[some "9th"], [some "4th"], [some "10th"]] ∧
    List.Perm (sort_values
        { cols := ["grade"], rows := [[some "4th"], [some "10th"], [some "9th"]] }
        "grade" false).rows [[some "4th"], [some "10th"], [some "9th"]] :=
  ⟨by decide, by decide,
   (C4_sort_spec
      { cols := ["grade"], rows := [[some "4th"], [some "10th"], [some "9th"]] }
      "grade" false (by decide) (by decide)).2.1⟩

/-! ### Column selection (claims C2, C10) -/

theorem colIdxsFrom_not_mem {n : String} : ∀ (cols : List String) (k : Nat),
    n ∉ cols → colIdxsFrom cols n k = [] := by
  intro cols
  induction cols with
  | nil => intro k _; rfl
  | cons c cs ih =>
    intro k h
    unfold colIdxsFrom
    rw [if_neg (fun he => h (by rw [← he]; exact List.mem_cons_self c cs))]
    exact ih (k + 1) (fun hm => h (List.mem_cons_of_mem _ hm))

theorem colIdxsFrom_shift {n : String} : ∀ (cols : List String) (k : Nat),
    colIdxsFrom cols n k = (colIdxsFrom cols n 0).map (fun i => k + i) := by
  intro cols
  induction cols with
  | nil => intro k; rfl
  | cons c cs ih =>
    intro k
    unfold colIdxsFrom
    by_cases hc : c = n
    · rw [if_pos hc, if_pos hc, ih (k + 1), ih 1, List.map_cons, List.map_map]
      refine List.cons_eq_cons.mpr ⟨by omega, ?_⟩
      apply List.map_congr_left
      intro a _
      show k + 1 + a = k + (1 + a)
      omega
    · rw [if_neg hc, if_neg hc, ih (k + 1), ih 1, List.map_map]
      apply List.map_congr_left
      intro a _
      show k + 1 + a = k + (1 + a)
      omega

theorem findIdx?_of_getD_nodup {n : String} : ∀ {cols : List String} {j : Nat},
    cols.Nodup → j < cols.length → cols.getD j "" = n →
    List.findIdx? (fun x => x == n) cols = some j := by
  intro cols
  induction cols with
  | nil => intro j _ hj _; simp at hj
  | cons c cs ih =>
    intro j hnd hj hg
    cases j with
    | zero =>
      rw [List.getD_cons_zero] at hg
      rw [List.findIdx?_cons, if_pos (by simpa using hg)]
    | succ j2 =>
      rw [List.getD_cons_succ] at hg
      have hj2 : j2 < cs.length := by simpa using hj
      have hmem : n ∈ cs := by
        rw [← hg, List.getD_eq_getElem _ _ hj2]
        exact List.getElem_mem hj2
      have hcn : c ≠ n := fun he => (List.nodup_cons.mp hnd).1 (by rw [he]; exact hmem)
      rw [List.findIdx?_cons, if_neg (by simpa using hcn), List.findIdx?_succ,
        ih (List.nodup_cons.mp hnd).2 hj2 hg]
      rfl

theorem colIdxs_singleton {cols : List String} {n : String} (hnd : cols.Nodup)
    (hm : n ∈ cols) :
    ∃ i, colIdxs cols n = [i] ∧ i < cols.length ∧ cols.getD i "" = n ∧
      List.findIdx? (fun x => x == n) cols = some i := by
  induction cols with
  | nil => simp at hm
  | cons c cs ih =>
    by_cases hc : c = n
    · have hne : n ∉ cs := fun hmem =>
        (List.nodup_cons.mp hnd).1 (by rw [hc]; exact hmem)
      refine ⟨0, ?_, by simp, by simpa using hc, ?_⟩
      · unfold colIdxs colIdxsFrom
        rw [if_pos hc, colIdxsFrom_not_mem cs 1 hne]
      · rw [List.findIdx?_cons, if_pos (by simpa using hc)]
    · have hm2 : n ∈ cs := by
        rcases List.mem_cons.mp hm with h1 | h1
        · exact absurd h1.symm hc
        · exact h1
      obtain ⟨i, h1, h2, h3, h4⟩ := ih (List.nodup_cons.mp hnd).2 hm2
      refine ⟨i + 1, ?_, by simpa using Nat.succ_lt_succ h2, by simpa using h3, ?_⟩
      · unfold colIdxs colIdxsFrom
        rw [if_neg hc, colIdxsFrom_shift cs 1]
        unfold colIdxs at h1
        rw [h1]
        simp [Nat.add_comm]
      · rw [List.findIdx?_cons, if_neg (by simpa using hc), List.findIdx?_succ, h4]
        rfl

theorem selectByNames_cols {t2 : Table} : ∀ {names : List String},
    (∀ n ∈ names, ∃ i, colIdxs t2.cols n = [i] ∧ t2.cols.getD i "" = n) →
    (selectByNames t2 names).cols = names := by
  intro names
  induction names with
  | nil => intro _; rfl
  | cons n ns ih =>
    intro h
    obtain ⟨i, hi, hgi⟩ := h n (by simp)
    show ((n :: ns).flatMap (colIdxs t2.cols)).map (fun j => t2.cols.getD j "") = _
    rw [List.flatMap_cons, hi, List.map_append]
    have htail := ih (fun m hm => h m (List.mem_cons_of_mem _ hm))
    show ([i].map (fun j => t2.cols.getD j "")) ++
      ((ns.flatMap (colIdxs t2.cols)).map (fun j => t2.cols.getD j "")) = n :: ns
    rw [show ([i].map (fun j => t2.cols.getD j "")) = [n] from by
      show [t2.cols.getD i ""] = [n]
      rw [hgi]]
    rw [show ((ns.flatMap (colIdxs t2.cols)).map (fun j => t2.cols.getD j "")) = ns
      from htail]
    rfl

theorem selectByNames_colVals {t2 : Table} : ∀ {names : List String},
    (∀ m ∈ names, ∃ i, colIdxs t2.cols m = [i] ∧ t2.cols.getD i "" = m ∧
      List.findIdx? (fun x => x == m) t2.cols = some i) →
    names.Nodup →
    ∀ n ∈ names, colVals (selectByNames t2 names) n = colVals t2 n := by
  intro names
  induction names with
  | nil => intro _ _ n hn; simp at hn
  | cons m ns ih =>
    intro h hnd n hn
    obtain ⟨i, hi, hgi, hfi⟩ := h m (by simp)
    have hcols : (selectByNames t2 (m :: ns)).cols = m :: (selectByNames t2 ns).cols := by
      show ((m :: ns).flatMap (colIdxs t2.cols)).map (fun j => t2.cols.getD j "") = _
      rw [List.flatMap_cons, hi, List.map_append]
      rw [show ([i].map (fun j => t2.cols.getD j "")) = [m] from by
        show [t2.cols.getD i ""] = [m]
        rw [hgi]]
      rfl
    have hrows : (selectByNames t2 (m :: ns)).rows =
        t2.rows.map (fun r => r.getD i none ::
          (ns.flatMap (colIdxs t2.cols)).map (fun j => r.getD j none)) := by
      show t2.rows.map _ = _
      apply List.map_congr_left
      intro r _
      rw [List.flatMap_cons, hi, List.map_append]
      rfl
    by_cases hnm : n = m
    · subst hnm
      unfold colVals
      rw [hcols, List.findIdx?_cons, if_pos (by simp), hfi]
      show some ((selectByNames t2 (n :: ns)).rows.map (fun r => r.getD 0 none)) = _
      rw [hrows, List.map_map]
      refine congrArg some (List.map_congr_left ?_)
      intro r _
      rfl
    · have hn2 : n ∈ ns := by
        rcases List.mem_cons.mp hn with h1 | h1
        · exact absurd h1 hnm
        · exact h1
      have hrec := ih (fun q hq => h q (List.mem_cons_of_mem _ hq))
        (List.nodup_cons.mp hnd).2 n hn2
      unfold colVals at hrec ⊢
      rw [hcols, List.findIdx?_cons,
        if_neg (by simpa using fun he => hnm he.symm), List.findIdx?_succ]
      cases hfq : List.findIdx? (fun x => x == n) (selectByNames t2 ns).cols with
      | none =>
        rw [hfq] at hrec
        exact hrec
      | some q =>
        rw [hfq] at hrec
        show some ((selectByNames t2 (m :: ns)).rows.map (fun r => r.getD (q + 1) none)) = _
        rw [← hrec]
        show _ = some ((selectByNames t2 ns).rows.map (fun r => r.getD q none))
        refine congrArg some ?_
        rw [hrows]
        rw [show (selectByNames t2 ns).rows =
          t2.rows.map (fun r => (ns.flatMap (colIdxs t2.cols)).map (fun j => r.getD j none))
          from rfl]
        rw [List.map_map, List.map_map]
        apply List.map_congr_left
        intro r _
        show ((r.getD i none ::
          (ns.flatMap (colIdxs t2.cols)).map (fun j => r.getD j none)).getD (q + 1) none) = _
        rw [List.getD_cons_succ]
        rfl

theorem flatMap_congr2 {α β : Type} {l : List α} {f g : α → List β}
    (h : ∀ a ∈ l, f a = g a) : l.flatMap f = l.flatMap g := by
  induction l with
  | nil => rfl
  | cons x xs ih =>
    rw [List.flatMap_cons, List.flatMap_cons, h x (by simp),
      ih (fun a ha => h a (List.mem_cons_of_mem _ ha))]

theorem flatMap_colIdxs_self : ∀ {cols : List String}, cols.Nodup →
    cols.flatMap (colIdxs cols) = List.range cols.length := by
  intro cols
  induction cols with
  | nil => intro _; rfl
  | cons c cs ih =>
    intro hnd
    have hne : c ∉ cs := (List.nodup_cons.mp hnd).1
    rw [List.flatMap_cons]
    have hhead : colIdxs (c :: cs) c = [0] := by
      unfold colIdxs colIdxsFrom
      rw [if_pos rfl, colIdxsFrom_not_mem cs 1 hne]
    have htail : cs.flatMap (colIdxs (c :: cs)) =
        (cs.flatMap (colIdxs cs)).map (fun i => 1 + i) := by
      rw [List.map_flatMap]
      apply flatMap_congr2
      intro n hn
      have hcn : ¬(c = n) := fun he => hne (by rw [he]; exact hn)
      show colIdxsFrom (c :: cs) n 0 = _
      unfold colIdxsFrom
      rw [if_neg hcn]
      exact colIdxsFrom_shift cs 1
    rw [hhead, htail, ih (List.nodup_cons.mp hnd).2]
    show [0] ++ (List.range cs.length).map (fun i => 1 + i) = List.range (cs.length + 1)
    rw [List.range_succ_eq_map]
    show 0 :: (List.range cs.length).map (fun i => 1 + i) =
      0 :: (List.range cs.length).map Nat.succ
    refine List.cons_eq_cons.mpr ⟨rfl, List.map_congr_left ?_⟩
    intro a _
    show 1 + a = a + 1
    omega

theorem map_getD_range {α : Type} (d : α) : ∀ (r : List α),
    (List.range r.length).map (fun i => r.getD i d) = r := by
  intro r
  induction r with
  | nil => rfl
  | cons a r2 ih =>
    show (List.range (r2.length + 1)).map _ = _
    rw [List.range_succ_eq_map, List.map_cons, List.map_map]
    refine List.cons_eq_cons.mpr ⟨rfl, ?_⟩
    rw [show (List.range r2.length).map ((fun i => (a :: r2).getD i d) ∘ Nat.succ) =
        (List.range r2.length).map (fun i => r2.getD i d) from
      List.map_congr_left (fun i _ => by
        show (a :: r2).getD (i + 1) d = _
        rw [List.getD_cons_succ])]
    exact ih

theorem selectByNames_self {u : Table} (hnd : u.cols.Nodup) (ha : Aligned u) :
    selectByNames u u.cols = u := by
  have hidx := flatMap_colIdxs_self hnd
  have hcols : (selectByNames u u.cols).cols = u.cols := by
    show (u.cols.flatMap (colIdxs u.cols)).map (fun j => u.cols.getD j "") = u.cols
    rw [hidx]
    exact map_getD_range "" u.cols
  have hrows : (selectByNames u u.cols).rows = u.rows := by
    show u.rows.map _ = u.rows
    have hpt : ∀ r ∈ u.rows,
        (u.cols.flatMap (colIdxs u.cols)).map (fun j => r.getD j none) = r := by
      intro r hr
      rw [hidx, ← ha r hr]
      exact map_getD_range none r
    calc u.rows.map (fun r => (u.cols.flatMap (colIdxs u.cols)).map (fun j => r.getD j none))
        = u.rows.map id := List.map_congr_left (fun r hr => hpt r hr)
      _ = u.rows := List.map_id u.rows
  have hsel : selectByNames u u.cols =
      ⟨(selectByNames u u.cols).cols, (selectByNames u u.cols).rows⟩ := rfl
  rw [hsel, hcols, hrows]

theorem findIdx?_append_self {n : String} : ∀ {l : List String}, n ∉ l →
    List.findIdx? (fun x => x == n) (l ++ [n]) = some l.length := by
  intro l
  induction l with
  | nil =>
    intro _
    rw [List.nil_append, List.findIdx?_cons, if_pos (by simp)]
    rfl
  | cons c cs ih =>
    intro h
    have hc : ¬(c = n) := fun he => h (by rw [he]; exact List.mem_cons_self n cs)
    rw [List.cons_append, List.findIdx?_cons, if_neg (by simpa using hc),
      List.findIdx?_succ, ih (fun hm => h (List.mem_cons_of_mem _ hm))]
    rfl

theorem gradeT_nodup {t : Table} (hnd : (t.cols.map canonName).Nodup) :
    (gradeT t).cols.Nodup := by
  unfold gradeT
  split
  · exact hnd
  · next hq =>
    show (t.cols.map canonName ++ ["grade"]).Nodup
    rw [List.nodup_append]
    refine ⟨hnd, List.nodup_singleton _, ?_⟩
    intro a ha hb
    rw [List.mem_singleton] at hb
    subst hb
    exact hq (List.elem_iff.mpr ha)

theorem gradeT_aligned {t : Table} (ha : Aligned t) : Aligned (gradeT t) := by
  unfold Aligned gradeT
  split
  · intro r hr
    show r.length = (t.cols.map canonName).length
    rw [List.length_map]
    exact ha r hr
  · intro r hr
    obtain ⟨r0, hr0, rfl⟩ := List.mem_map.mp hr
    show (r0 ++ [some ""]).length = (t.cols.map canonName ++ ["grade"]).length
    simp [List.length_append, List.length_map, ha r0 hr0]

theorem grade_mem_gradeT (t : Table) : "grade" ∈ (gradeT t).cols := by
  unfold gradeT
  split
  · next h => exact List.elem_iff.mp h
  · show "grade" ∈ _ ++ ["grade"]
    exact List.mem_append.mpr (Or.inr (by simp))

theorem gradeT_getD {t : Table} {j : Nat} (hj : j < t.cols.length) :
    (gradeT t).cols.getD j "" = canonName (t.cols.getD j "") := by
  have hj2 : j < (t.cols.map canonName).length := by
    rw [List.length_map]; exact hj
  have hgd : (t.cols.map canonName).getD j "" = canonName (t.cols.getD j "") := by
    rw [List.getD_eq_getElem _ _ hj2, List.getElem_map, List.getD_eq_getElem _ _ hj]
  unfold gradeT
  split
  · exact hgd
  · show (t.cols.map canonName ++ ["grade"]).getD j "" = _
    rw [List.getD_append _ _ _ j hj2]
    exact hgd

theorem gradeT_len {t : Table} {j : Nat} (hj : j < t.cols.length) :
    j < (gradeT t).cols.length := by
  unfold gradeT
  split
  · show j < (t.cols.map canonName).length
    rw [List.length_map]
    exact hj
  · show j < (t.cols.map canonName ++ ["grade"]).length
    rw [List.length_append, List.length_map]
    omega

/-- C2 (amended): for a table with aligned rows whose canonicalized column
names are pairwise distinct, `canonicalize_headers` renames every column to
the canonical name of its header (the earliest-declared alias match of the
normalized header, else the normalized header itself) while keeping the
column's values, so no column is dropped; when no column maps to `grade` it
synthesizes a `grade` column holding the empty string in every row; and the
output columns are the canonical fields present, first, in the fixed
preferred order, followed by the remaining columns in their original
relative order.  (The distinctness hypothesis is forced: with colliding
names the pandas label selection duplicates columns, see the
counterexample.) -/
theorem C2_canonicalize_spec (t : Table) (ha : Aligned t)
    (hnd : (t.cols.map canonName).Nodup) :
    ((canonicalize_headers t).cols =
      PREFERRED_ORDER.filter (fun c => (gradeT t).cols.contains c) ++
      (gradeT t).cols.filter (fun c => !(PREFERRED_ORDER.contains c))) ∧
    (∀ j, j < t.cols.length →
      colVals (canonicalize_headers t) (canonName (t.cols.getD j "")) =
        some (t.rows.map (fun r => r.getD j none))) ∧
    ("grade" ∉ t.cols.map canonName →
      colVals (canonicalize_headers t) "grade" =
        some (t.rows.map (fun _ => some ""))) ∧
    "grade" ∈ (canonicalize_headers t).cols := by
  have hnd2 : (gradeT t).cols.Nodup := gradeT_nodup hnd
  set t2 := gradeT t with ht2
  set ordered := PREFERRED_ORDER.filter (fun c => t2.cols.contains c) with hord
  set remaining := t2.cols.filter (fun c => !(ordered.contains c)) with hrem
  have heq : canonicalize_headers t = selectByNames t2 (ordered ++ remaining) := rfl
  have hsub : ∀ n ∈ ordered ++ remaining, n ∈ t2.cols := by
    intro n hn
    rcases List.mem_append.mp hn with h1 | h1
    · exact List.elem_iff.mp (List.mem_filter.mp h1).2
    · exact (List.mem_filter.mp h1).1
  have hnames : (ordered ++ remaining).Nodup := by
    rw [List.nodup_append]
    refine ⟨List.Nodup.filter _ (by decide), List.Nodup.filter _ hnd2, ?_⟩
    intro a haord harem
    have hc := (List.mem_filter.mp harem).2
    simp at hc
    exact hc haord
  have hcov : ∀ c ∈ t2.cols, c ∈ ordered ++ remaining := by
    intro c hc
    by_cases ho : c ∈ ordered
    · exact List.mem_append.mpr (Or.inl ho)
    · refine List.mem_append.mpr (Or.inr (List.mem_filter.mpr ⟨hc, ?_⟩))
      cases hoc : ordered.contains c
      · rfl
      · exact absurd (List.elem_iff.mp hoc) ho
  have hsingle : ∀ n ∈ ordered ++ remaining,
      ∃ i, colIdxs t2.cols n = [i] ∧ t2.cols.getD i "" = n ∧
        List.findIdx? (fun x => x == n) t2.cols = some i := by
    intro n hn
    obtain ⟨i, h1, _, h3, h4⟩ := colIdxs_singleton hnd2 (hsub n hn)
    exact ⟨i, h1, h3, h4⟩
  have hcolsout : (canonicalize_headers t).cols = ordered ++ remaining := by
    rw [heq]
    exact selectByNames_cols (fun n hn => by
      obtain ⟨i, h1, h2, _⟩ := hsingle n hn
      exact ⟨i, h1, h2⟩)
  have hvals : ∀ n ∈ ordered ++ remaining,
      colVals (canonicalize_headers t) n = colVals t2 n := by
    rw [heq]
    exact selectByNames_colVals hsingle hnames
  refine ⟨?_, ?_, ?_, ?_⟩
  · rw [hcolsout, hrem]
    refine congrArg (ordered ++ ·) ?_
    apply List.filter_congr
    intro c hc
    refine congrArg Bool.not ?_
    rw [Bool.eq_iff_iff, List.elem_iff, List.elem_iff]
    constructor
    · intro hmem
      rw [hord] at hmem
      exact (List.mem_filter.mp hmem).1
    · intro hcp
      rw [hord]
      exact List.mem_filter.mpr ⟨hcp, List.elem_iff.mpr hc⟩
  · intro j hj
    have hlen2 : j < t2.cols.length := by rw [ht2]; exact gradeT_len hj
    have hget2 : t2.cols.getD j "" = canonName (t.cols.getD j "") := by
      rw [ht2]; exact gradeT_getD hj
    have hmem2 : canonName (t.cols.getD j "") ∈ t2.cols := by
      rw [← hget2, List.getD_eq_getElem _ _ hlen2]
      exact List.getElem_mem hlen2
    rw [hvals _ (hcov _ hmem2)]
    unfold colVals
    rw [findIdx?_of_getD_nodup hnd2 hlen2 hget2]
    show some (t2.rows.map (fun r => r.getD j none)) = _
    refine congrArg some ?_
    rw [ht2]
    show (gradeT t).rows.map _ = _
    unfold gradeT
    split
    · rfl
    · show (t.rows.map (fun r => r ++ [some ""])).map _ = _
      rw [List.map_map]
      apply List.map_congr_left
      intro r hr
      show (r ++ [some ""]).getD j none = r.getD j none
      have hjr : j < r.length := by rw [ha r hr]; exact hj
      exact List.getD_append _ _ _ j hjr
  · intro hng
    have hc : (t.cols.map canonName).contains "grade" = false := by
      cases hcc : (t.cols.map canonName).contains "grade"
      · rfl
      · exact absurd (List.elem_iff.mp hcc) hng
    have ht2e : t2 = Table.mk (t.cols.map canonName ++ ["grade"])
        (t.rows.map (fun r => r ++ [some ""])) := by
      rw [ht2]
      unfold gradeT
      rw [if_neg (by rw [hc]; simp)]
    have hmemg : "grade" ∈ t2.cols := by rw [ht2]; exact grade_mem_gradeT t
    rw [hvals _ (hcov _ hmemg)]
    unfold colVals
    have hfg : List.findIdx? (fun x => x == "grade") t2.cols =
        some (t.cols.map canonName).length := by
      rw [ht2e]
      exact findIdx?_append_self hng
    rw [hfg]
    show some (t2.rows.map (fun r => r.getD (t.cols.map canonName).length none)) = _
    refine congrArg some ?_
    rw [ht2e]
    show (t.rows.map (fun r => r ++ [some ""])).map _ = _
    rw [List.map_map]
    apply List.map_congr_left
    intro r hr
    show (r ++ [some ""]).getD (t.cols.map canonName).length none = some ""
    have hlen : r.length = (t.cols.map canonName).length := by
      rw [List.length_map]
      exact ha r hr
    rw [← hlen]
    have hb : r.length < (r ++ [some ""]).length := by
      rw [List.length_append]
      simp
    rw [List.getD_eq_getElem _ _ hb, List.getElem_append_right (Nat.le_refl _)]
    simp
  · rw [hcolsout]
    exact hcov _ (by rw [ht2]; exact grade_mem_gradeT t)

/-- C2 counterexample: the claim as stated fails on a table whose two
headers normalize to the same name.  With columns `"a b"` and `"a_b"` (both
canonicalizing to `a_b`) the claim predicts the three columns
`grade, a_b, a_b` (synthesized grade first, then the renamed columns in
order), but the label-based selection duplicates the colliding columns and
the code returns five columns. -/
theorem C2_counterexample :
    (canonicalize_headers { cols := ["a b", "a_b"], rows := [[some "1", some "2"]] }).cols ≠
      ["grade", "a_b", "a_b"] ∧
    (canonicalize_headers { cols := ["a b", "a_b"], rows := [[some "1", some "2"]] }).cols =
      ["grade", "a_b", "a_b", "a_b", "a_b"] := by
  constructor
  · decide
  · decide

/-- C2 witness: the amended theorem applied to the spec's scenario-1 header
row `PE Code, Performance Expectation, Grade`; the first column keeps its
values under its canonical name `code`. -/
theorem C2_witness :
    ((["PE Code", "Performance Expectation", "Grade"] : List String).map canonName).Nodup ∧
    colVals
      (canonicalize_headers
        { cols := ["PE Code", "Performance Expectation", "Grade"],
          rows := [[some "MS-ESS1-1", some "Students who demonstrate", some ""]] })
      (canonName ((["PE Code", "Performance Expectation", "Grade"] : List String).getD 0 "")) =
      some ([[some "MS-ESS1-1", some "Students who demonstrate", some ""]].map
        (fun r => r.getD 0 none)) :=
  ⟨by decide,
   (C2_canonicalize_spec
      { cols := ["PE Code", "Performance Expectation", "Grade"],
        rows := [[some "MS-ESS1-1", some "Students who demonstrate", some ""]] }
      (by intro r hr; fin_cases hr; rfl) (by decide)).2.1 0 (by decide)⟩

/-! ### Idempotence of canonicalization (claim C10) -/

theorem canonMap_fst : ∀ p ∈ ALIAS_MAP, canonName p.1 = p.1 := by decide

theorem canonName_idem (c : String) : canonName (canonName c) = canonName c := by
  have hcn : canonName c = (match ALIAS_MAP.find?
      (fun p => (p.2.map lowerStr).contains (_normalize_header c)) with
    | some p => p.1
    | none => _normalize_header c) := rfl
  cases hf : ALIAS_MAP.find?
      (fun p => (p.2.map lowerStr).contains (_normalize_header c)) with
  | some p =>
    have hval : canonName c = p.1 := by rw [hcn, hf]
    rw [hval]
    exact canonMap_fst p (List.mem_of_find?_eq_some hf)
  | none =>
    have hval : canonName c = _normalize_header c := by rw [hcn, hf]
    rw [hval]
    unfold canonName
    rw [normalize_idem_core, hf]

theorem selectByNames_aligned (t2 : Table) (names : List String) :
    Aligned (selectByNames t2 names) := by
  intro r hr
  obtain ⟨r0, _, rfl⟩ := List.mem_map.mp hr
  simp [selectByNames, List.length_map]

/-- C10: `canonicalize_headers` is idempotent on every table with pairwise
distinct column names whose canonicalized column names are also pairwise
distinct: applying it to its own output returns that output unchanged, so
re-canonicalizing an accumulated dataset is safe. -/
theorem C10_canonicalize_idem (t : Table)
    (_hnd0 : t.cols.Nodup) (hnd : (t.cols.map canonName).Nodup) :
    canonicalize_headers (canonicalize_headers t) = canonicalize_headers t := by
  have hnd2 : (gradeT t).cols.Nodup := gradeT_nodup hnd
  set t2 := gradeT t with ht2
  set ordered := PREFERRED_ORDER.filter (fun c => t2.cols.contains c) with hord
  set remaining := t2.cols.filter (fun c => !(ordered.contains c)) with hrem
  have heq : canonicalize_headers t = selectByNames t2 (ordered ++ remaining) := rfl
  have hsub : ∀ n ∈ ordered ++ remaining, n ∈ t2.cols := by
    intro n hn
    rcases List.mem_append.mp hn with h1 | h1
    · exact List.elem_iff.mp (List.mem_filter.mp h1).2
    · exact (List.mem_filter.mp h1).1
  have hnames : (ordered ++ remaining).Nodup := by
    rw [List.nodup_append]
    refine ⟨List.Nodup.filter _ (by decide), List.Nodup.filter _ hnd2, ?_⟩
    intro a haord harem
    have hc := (List.mem_filter.mp harem).2
    simp at hc
    exact hc haord
  have hcov : ∀ c ∈ t2.cols, c ∈ ordered ++ remaining := by
    intro c hc
    by_cases ho : c ∈ ordered
    · exact List.mem_append.mpr (Or.inl ho)
    · refine List.mem_append.mpr (Or.inr (List.mem_filter.mpr ⟨hc, ?_⟩))
      cases hoc : ordered.contains c
      · rfl
      · exact absurd (List.elem_iff.mp hoc) ho
  have hcolsout : (canonicalize_headers t).cols = ordered ++ remaining := by
    rw [heq]
    refine selectByNames_cols (fun n hn => ?_)
    obtain ⟨i, h1, _, h3, _⟩ := colIdxs_singleton hnd2 (hsub n hn)
    exact ⟨i, h1, h3⟩
  have hfix : ∀ n ∈ ordered ++ remaining, canonName n = n := by
    intro n hn
    have hmem : n ∈ t2.cols := hsub n hn
    rw [ht2] at hmem
    unfold gradeT at hmem
    revert hmem
    split
    · intro hmem
      obtain ⟨x, _, rfl⟩ := List.mem_map.mp hmem
      exact canonName_idem x
    · intro hmem
      rcases List.mem_append.mp (by exact hmem) with h1 | h1
      · obtain ⟨x, _, rfl⟩ := List.mem_map.mp h1
        exact canonName_idem x
      · rw [List.mem_singleton.mp h1]
        decide
  have hmap2 : (canonicalize_headers t).cols.map canonName =
      (canonicalize_headers t).cols := by
    rw [hcolsout]
    calc (ordered ++ remaining).map canonName
        = (ordered ++ remaining).map id := List.map_congr_left hfix
      _ = ordered ++ remaining := List.map_id _
  have hgrade_out : "grade" ∈ (canonicalize_headers t).cols := by
    rw [hcolsout]
    exact hcov _ (by rw [ht2]; exact grade_mem_gradeT t)
  have hgT : gradeT (canonicalize_headers t) = canonicalize_headers t := by
    have hcond : ((canonicalize_headers t).cols.map canonName).contains "grade" = true := by
      rw [hmap2]
      simp [hgrade_out]
    unfold gradeT
    rw [if_pos hcond, hmap2]
  have hmemiff : ∀ c, ((canonicalize_headers t).cols.contains c) = (t2.cols.contains c) := by
    intro c
    have h1 : c ∈ (canonicalize_headers t).cols ↔ c ∈ t2.cols := by
      constructor
      · intro h
        refine hsub c ?_
        rw [← hcolsout]
        exact h
      · intro h
        rw [hcolsout]
        exact hcov c h
    cases hcc : t2.cols.contains c
    · cases hdd : (canonicalize_headers t).cols.contains c
      · rfl
      · have hm := h1.mp (by simpa using hdd)
        have hc2 : t2.cols.contains c = true := by simp [hm]
        rw [hc2] at hcc
        exact absurd hcc (by decide)
    · cases hdd : (canonicalize_headers t).cols.contains c
      · have hm := h1.mpr (by simpa using hcc)
        have hc2 : (canonicalize_headers t).cols.contains c = true := by simp [hm]
        rw [hc2] at hdd
        exact absurd hdd (by decide)
      · rfl
  have heq2 : canonicalize_headers (canonicalize_headers t) =
      selectByNames (gradeT (canonicalize_headers t))
        (PREFERRED_ORDER.filter
          (fun c => (gradeT (canonicalize_headers t)).cols.contains c) ++
         (gradeT (canonicalize_headers t)).cols.filter
          (fun c => !((PREFERRED_ORDER.filter
            (fun c2 => (gradeT (canonicalize_headers t)).cols.contains c2)).contains c))) := rfl
  rw [heq2, hgT]
  have hord2 : PREFERRED_ORDER.filter (fun c => (canonicalize_headers t).cols.contains c) =
      ordered := by
    rw [hord]
    apply List.filter_congr
    intro c _
    exact hmemiff c
  rw [hord2]
  have hrem2 : (canonicalize_headers t).cols.filter (fun c => !(ordered.contains c)) =
      remaining := by
    rw [hcolsout, List.filter_append]
    have hfo : ordered.filter (fun c => !(ordered.contains c)) = [] := by
      rw [List.filter_eq_nil_iff]
      intro a ha
      simp [ha]
    have hfr : remaining.filter (fun c => !(ordered.contains c)) = remaining := by
      rw [List.filter_eq_self]
      intro a ha
      exact (List.mem_filter.mp ha).2
    rw [hfo, hfr, List.nil_append]
  rw [hrem2]
  have hnames2 : ordered ++ remaining = (canonicalize_headers t).cols := hcolsout.symm
  rw [hnames2]
  refine selectByNames_self ?_ ?_
  · rw [hcolsout]
    exact hnames
  · rw [heq]
    exact selectByNames_aligned t2 (ordered ++ remaining)

/-- C10 witness: the theorem applied to a concrete already-messy table. -/
theorem C10_witness :
    ((["PE Code", "Notes"] : List String).map canonName).Nodup ∧
    canonicalize_headers (canonicalize_headers
      { cols := ["PE Code", "Notes"], rows := [[some "MS-ESS1-1", some "x"]] }) =
      canonicalize_headers
        { cols := ["PE Code", "Notes"], rows := [[some "MS-ESS1-1", some "x"]] } :=
  ⟨by decide,
   C10_canonicalize_idem
      { cols := ["PE Code", "Notes"], rows := [[some "MS-ESS1-1", some "x"]] }
      (by decide) (by decide)⟩

/-! ### The CSV round-trip (claim C6) -/

theorem pla_nil (acc : List Char) (st : CsvSt) (out : List String) :
    parseLineAux [] acc st out = out ++ [String.mk acc.reverse] := by
  cases st <;> rfl

theorem pla_quoted_q (cs acc : List Char) (out : List String) :
    parseLineAux ('"' :: cs) acc CsvSt.quoted out = parseLineAux cs acc CsvSt.afterQ out := by
  simp [parseLineAux]

theorem pla_quoted_nq {c : Char} (h : c ≠ '"') (cs acc : List Char) (out : List String) :
    parseLineAux (c :: cs) acc CsvSt.quoted out = parseLineAux cs (c :: acc) CsvSt.quoted out := by
  simp [parseLineAux, h]

theorem pla_afterQ_q (cs acc : List Char) (out : List String) :
    parseLineAux ('"' :: cs) acc CsvSt.afterQ out =
      parseLineAux cs ('"' :: acc) CsvSt.quoted out := by
  simp [parseLineAux]

theorem pla_afterQ_comma (cs acc : List Char) (out : List String) :
    parseLineAux (',' :: cs) acc CsvSt.afterQ out =
      parseLineAux cs [] CsvSt.plain (out ++ [String.mk acc.reverse]) := by
  simp [parseLineAux]

theorem pla_plain_q (cs acc : List Char) (out : List String) :
    parseLineAux ('"' :: cs) acc CsvSt.plain out = parseLineAux cs acc CsvSt.quoted out := by
  simp [parseLineAux]

theorem pla_plain_comma (cs acc : List Char) (out : List String) :
    parseLineAux (',' :: cs) acc CsvSt.plain out =
      parseLineAux cs [] CsvSt.plain (out ++ [String.mk acc.reverse]) := by
  simp [parseLineAux]

theorem pla_plain_other {c : Char} (h1 : c ≠ '"') (h2 : c ≠ ',')
    (cs acc : List Char) (out : List String) :
    parseLineAux (c :: cs) acc CsvSt.plain out = parseLineAux cs (c :: acc) CsvSt.plain out := by
  simp [parseLineAux, h1, h2]

theorem escQ_parse (f : List Char) : ∀ (rest acc : List Char) (out : List String),
    parseLineAux (escQ f ++ rest) acc CsvSt.quoted out =
      parseLineAux rest (f.reverse ++ acc) CsvSt.quoted out := by
  induction f with
  | nil => intro rest acc out; rfl
  | cons c cs ih =>
    intro rest acc out
    by_cases hc : c = '"'
    · subst hc
      have h1 : escQ ('"' :: cs) = '"' :: '"' :: escQ cs := by simp [escQ]
      rw [h1]
      show parseLineAux ('"' :: ('"' :: (escQ cs ++ rest))) acc CsvSt.quoted out = _
      rw [pla_quoted_q, pla_afterQ_q, ih]
      simp
    · have h1 : escQ (c :: cs) = c :: escQ cs := by simp [escQ, hc]
      rw [h1]
      show parseLineAux (c :: (escQ cs ++ rest)) acc CsvSt.quoted out = _
      rw [pla_quoted_nq hc, ih]
      simp

theorem plain_run {f : List Char} (h : needsQ f = false) :
    ∀ (rest acc : List Char) (out : List String),
    parseLineAux (f ++ rest) acc CsvSt.plain out =
      parseLineAux rest (f.reverse ++ acc) CsvSt.plain out := by
  induction f with
  | nil => intro rest acc out; rfl
  | cons c cs ih =>
    intro rest acc out
    rw [needsQ, List.any_cons] at h
    simp only [Bool.or_eq_false_iff, decide_eq_false_iff_not] at h
    obtain ⟨⟨⟨⟨hc1, hc2⟩, _⟩, _⟩, hcs⟩ := h
    have hcs2 : needsQ cs = false := hcs
    show parseLineAux (c :: (cs ++ rest)) acc CsvSt.plain out = _
    rw [pla_plain_other hc2 hc1, ih hcs2]
    simp

theorem field_end (f : List Char) (out : List String) :
    parseLineAux (quoteF f) [] CsvSt.plain out = out ++ [String.mk f] := by
  unfold quoteF
  by_cases hq : needsQ f = true
  · rw [if_pos hq]
    show parseLineAux ('"' :: (escQ f ++ ['"'])) [] CsvSt.plain out = _
    rw [pla_plain_q, escQ_parse]
    show parseLineAux ('"' :: []) (f.reverse ++ []) CsvSt.quoted out = _
    rw [pla_quoted_q, pla_nil]
    simp
  · rw [if_neg hq]
    have hq2 : needsQ f = false := by simpa using hq
    have h2 := plain_run hq2 [] [] out
    rw [List.append_nil] at h2
    rw [h2, pla_nil]
    simp

theorem field_comma (f : List Char) (tail : List Char) (out : List String) :
    parseLineAux (quoteF f ++ ',' :: tail) [] CsvSt.plain out =
      parseLineAux tail [] CsvSt.plain (out ++ [String.mk f]) := by
  unfold quoteF
  by_cases hq : needsQ f = true
  · rw [if_pos hq]
    show parseLineAux ('"' :: ((escQ f ++ ['"']) ++ ',' :: tail)) [] CsvSt.plain out = _
    rw [pla_plain_q, List.append_assoc, escQ_parse]
    show parseLineAux ('"' :: (',' :: tail)) (f.reverse ++ []) CsvSt.quoted out = _
    rw [pla_quoted_q, pla_afterQ_comma]
    simp
  · rw [if_neg hq]
    have hq2 : needsQ f = false := by simpa using hq
    rw [plain_run hq2, pla_plain_comma]
    simp

theorem joinComma_parse : ∀ (fields : List String), fields ≠ [] → ∀ (out : List String),
    parseLineAux (joinComma (fields.map (fun f => quoteF f.data))) [] CsvSt.plain out =
      out ++ fields := by
  intro fields
  induction fields with
  | nil => intro h; exact absurd rfl h
  | cons f fs ih =>
    intro _ out
    cases fs with
    | nil =>
      show parseLineAux (quoteF f.data) [] CsvSt.plain out = _
      rw [field_end]
    | cons g gs =>
      show parseLineAux (quoteF f.data ++ ',' ::
          joinComma ((g :: gs).map (fun f => quoteF f.data))) [] CsvSt.plain out = _
      rw [field_comma, ih (by simp)]
      simp

theorem parseLine_renderLine {fields : List String} (h : fields ≠ []) :
    parseLine (renderLine fields) = fields := by
  unfold parseLine renderLine
  rw [joinComma_parse fields h]
  simp

theorem mem_escQ {c : Char} : ∀ {f : List Char}, c ∈ escQ f → c ∈ f ∨ c = '"' := by
  intro f
  induction f with
  | nil => intro h; exact absurd h (List.not_mem_nil c)
  | cons a as ih =>
    intro h
    by_cases ha : a = '"'
    · subst ha
      simp only [escQ, if_pos rfl] at h
      rcases List.mem_cons.mp h with h1 | h1
      · exact Or.inr h1
      rcases List.mem_cons.mp h1 with h2 | h2
      · exact Or.inr h2
      rcases ih h2 with h3 | h3
      · exact Or.inl (List.mem_cons_of_mem _ h3)
      · exact Or.inr h3
    · simp only [escQ, if_neg ha] at h
      rcases List.mem_cons.mp h with h1 | h1
      · exact Or.inl (h1 ▸ List.mem_cons_self a as)
      rcases ih h1 with h3 | h3
      · exact Or.inl (List.mem_cons_of_mem _ h3)
      · exact Or.inr h3

theorem mem_quoteF {c : Char} {f : List Char} (h : c ∈ quoteF f) : c ∈ f ∨ c = '"' := by
  unfold quoteF at h
  by_cases hq : needsQ f = true
  · rw [if_pos hq] at h
    rcases List.mem_cons.mp h with h1 | h1
    · exact Or.inr h1
    rcases List.mem_append.mp h1 with h2 | h2
    · exact mem_escQ h2
    · exact Or.inr (List.mem_singleton.mp h2)
  · rw [if_neg hq] at h
    exact Or.inl h

theorem mem_joinComma {c : Char} : ∀ {ls : List (List Char)}, c ∈ joinComma ls →
    (∃ l ∈ ls, c ∈ l) ∨ c = ',' := by
  intro ls
  induction ls with
  | nil => intro h; exact absurd h (List.not_mem_nil c)
  | cons f fs ih =>
    intro h
    cases fs with
    | nil =>
      exact Or.inl ⟨f, List.mem_singleton_self f, h⟩
    | cons g gs =>
      rw [show joinComma (f :: g :: gs) =
        f ++ ',' :: joinComma (g :: gs) from rfl] at h
      rcases List.mem_append.mp h with h1 | h1
      · exact Or.inl ⟨f, List.mem_cons_self _ _, h1⟩
      rcases List.mem_cons.mp h1 with h2 | h2
      · exact Or.inr h2
      rcases ih h2 with ⟨l, hl, hcl⟩ | h3
      · exact Or.inl ⟨l, List.mem_cons_of_mem _ hl, hcl⟩
      · exact Or.inr h3

theorem nl_notin_renderLine {fields : List String}
    (h : ∀ f ∈ fields, '\n' ∉ f.data) : '\n' ∉ renderLine fields := by
  intro hmem
  unfold renderLine at hmem
  rcases mem_joinComma hmem with ⟨l, hl, hcl⟩ | hc
  · obtain ⟨f, hf, rfl⟩ := List.mem_map.mp hl
    rcases mem_quoteF hcl with h1 | h1
    · exact h f hf h1
    · exact absurd h1 (by decide)
  · exact absurd hc (by decide)

theorem splitOnNl_line {l : List Char} (h : '\n' ∉ l) (rest : List Char) :
    splitOnNl (l ++ '\n' :: rest) = l :: splitOnNl rest := by
  induction l with
  | nil => simp [splitOnNl]
  | cons c cs ih =>
    have hc : c ≠ '\n' := fun hcn => h (hcn ▸ List.mem_cons_self c cs)
    have hcs : '\n' ∉ cs := fun hm => h (List.mem_cons_of_mem c hm)
    show splitOnNl (c :: (cs ++ '\n' :: rest)) = _
    simp only [splitOnNl, if_neg hc]
    rw [ih hcs]

theorem splitOnNl_flatMap : ∀ (ls : List (List Char)), (∀ l ∈ ls, '\n' ∉ l) →
    splitOnNl (ls.flatMap (fun l => l ++ ['\n'])) = ls ++ [[]] := by
  intro ls
  induction ls with
  | nil => intro _; rfl
  | cons l ls ih =>
    intro h
    show splitOnNl ((l ++ ['\n']) ++ ls.flatMap (fun l => l ++ ['\n'])) = _
    rw [List.append_assoc, List.singleton_append,
      splitOnNl_line (h l (List.mem_cons_self _ _)),
      ih (fun x hx => h x (List.mem_cons_of_mem _ hx))]
    rfl

theorem parseCsv_mk (h : List Char) (rs : List (List Char))
    (hnl : ∀ l ∈ h :: rs, '\n' ∉ l) :
    parseCsv (String.mk ((h :: rs).flatMap (fun l => l ++ ['\n']))) =
      { cols := parseLine h,
        rows := rs.map (fun r => (parseLine r).map (fun v => some v)) } := by
  unfold parseCsv
  have hsplit : splitOnNl (String.mk ((h :: rs).flatMap (fun l => l ++ ['\n']))).data =
      (h :: rs) ++ [[]] := splitOnNl_flatMap _ hnl
  have hcond : ((h :: rs) ++ [[]]).getLast? = some [] := List.getLast?_concat _
  have hdrop : ((h :: rs) ++ [[]]).dropLast = h :: rs := List.dropLast_concat
  rw [hsplit, if_pos hcond, hdrop]

theorem parse_render (t : Table) (hne : t.cols ≠ []) (ha : Aligned t)
    (hsome : ∀ r ∈ t.rows, ∀ c ∈ r, c.isSome = true)
    (hnlc : ∀ s ∈ t.cols, '\n' ∉ s.data)
    (hnlr : ∀ r ∈ t.rows, ∀ c ∈ r, '\n' ∉ (csvCellStr c).data) :
    parseCsv (csv_bytes t) = t := by
  have hlines : ∀ l ∈ (renderLine t.cols ::
      t.rows.map (fun r => renderLine (r.map csvCellStr))), '\n' ∉ l := by
    intro l hl
    rcases List.mem_cons.mp hl with h1 | h1
    · subst h1
      exact nl_notin_renderLine hnlc
    · obtain ⟨r, hr, rfl⟩ := List.mem_map.mp h1
      refine nl_notin_renderLine ?_
      intro f hf
      obtain ⟨c, hc2, rfl⟩ := List.mem_map.mp hf
      exact hnlr r hr c hc2
  have hmk := parseCsv_mk (renderLine t.cols)
    (t.rows.map (fun r => renderLine (r.map csvCellStr))) hlines
  rw [show csv_bytes t = String.mk (((renderLine t.cols) ::
    t.rows.map (fun r => renderLine (r.map csvCellStr))).flatMap
      (fun l => l ++ ['\n'])) from rfl, hmk]
  rw [parseLine_renderLine hne, List.map_map]
  have hrows : t.rows.map ((fun r => (parseLine r).map (fun v => some v)) ∘
      (fun r => renderLine (r.map csvCellStr))) = t.rows := by
    have hpt : ∀ r ∈ t.rows, ((fun r => (parseLine r).map (fun v => some v)) ∘
        (fun r => renderLine (r.map csvCellStr))) r = r := by
      intro r hr
      show (parseLine (renderLine (r.map csvCellStr))).map (fun v => some v) = r
      have hrne : r.map csvCellStr ≠ [] := by
        have hlen := ha r hr
        intro hnil
        have hr0 : r = [] := by simpa using hnil
        rw [hr0] at hlen
        exact hne (List.eq_nil_of_length_eq_zero hlen.symm)
      rw [parseLine_renderLine hrne, List.map_map]
      have hpc : ∀ c ∈ r, ((fun v => some v) ∘ csvCellStr) c = c := by
        intro c hc
        have hs := hsome r hr c hc
        cases c with
        | some s => rfl
        | none => exact absurd hs (by decide)
      calc r.map ((fun v => some v) ∘ csvCellStr) = r.map id := List.map_congr_left hpc
        _ = r := List.map_id r
    calc t.rows.map _ = t.rows.map id := List.map_congr_left hpt
      _ = t.rows := List.map_id _
  rw [hrows]

/-- C6 (amended): for every table with a nonempty header, aligned rows, no
missing values, and no newline character in any header or cell, exporting to
CSV bytes and re-parsing them with the CSV reader returns the table itself
exactly (quoting of delimiters and quote characters included); hence
re-running canonicalization on the parsed table agrees with canonicalizing
the original.  The claim as stated - that the canonicalized result has the
same column set and cell values as the exported table T - is refuted by
`C6_counterexample`: canonicalization renames headers and synthesizes a grade
column absent from T. -/
theorem C6_roundtrip (t : Table) (hne : t.cols ≠ []) (ha : Aligned t)
    (hsome : ∀ r ∈ t.rows, ∀ c ∈ r, c.isSome = true)
    (hnlc : ∀ s ∈ t.cols, '\n' ∉ s.data)
    (hnlr : ∀ r ∈ t.rows, ∀ c ∈ r, '\n' ∉ (csvCellStr c).data) :
    parseCsv (csv_bytes t) = t ∧
    canonicalize_headers (parseCsv (csv_bytes t)) = canonicalize_headers t := by
  have h := parse_render t hne ha hsome hnlc hnlr
  exact ⟨h, by rw [h]⟩

/-- C6 counterexample: exporting the table with the single column "Notes",
re-parsing and re-canonicalizing yields cols ["grade", "notes"] and the row
[some "", some "x"]: the header was renamed and a grade cell that T never
contained was synthesized, so the result does not have the same column set or
cell values as T under any column reordering. -/
theorem C6_counterexample :
    (canonicalize_headers (parseCsv (csv_bytes
      { cols := ["Notes"], rows := [[some "x"]] }))).cols = ["grade", "notes"] ∧
    (canonicalize_headers (parseCsv (csv_bytes
      { cols := ["Notes"], rows := [[some "x"]] }))).rows = [[some "", some "x"]] ∧
    "grade" ∉ ({ cols := ["Notes"], rows := [[some "x"]] } : Table).cols ∧
    some "" ∉ ([some "x"] : List Cell) := by
  refine ⟨by decide, by decide, by decide, by decide⟩

/-- C6 witness: the round-trip theorem applied to a concrete two-column table
whose values exercise quoting (a delimiter and a quote character). -/
theorem C6_witness :
    parseCsv (csv_bytes { cols := ["a,b", "Notes"], rows := [[some "x,\"y", some ""]] }) =
      { cols := ["a,b", "Notes"], rows := [[some "x,\"y", some ""]] } ∧
    canonicalize_headers
        (parseCsv (csv_bytes { cols := ["a,b", "Notes"], rows := [[some "x,\"y", some ""]] })) =
      canonicalize_headers { cols := ["a,b", "Notes"], rows := [[some "x,\"y", some ""]] } :=
  C6_roundtrip { cols := ["a,b", "Notes"], rows := [[some "x,\"y", some ""]] }
    (by decide) (by intro r hr; fin_cases hr; rfl) (by decide) (by decide) (by decide)

end NGSS
